import Mathlib

/-!
Shallow embedding of the SpacetimeDB subscription engine
(`crates/core/src/subscription/subscription.rs`) and the wasmer module host
(`crates/core/src/host/wasmer/wasmer_module.rs`), together with proofs of the
specification claims about them.

External collaborators that are out of scope for the repository sources
(`run_query`, `query::to_mem_table`, `RelationalDB::pk_for_row`, the wasmer
metering middleware, the buffer table of `wasm_common`) are modelled from the
specification; each such definition is marked `Modelled from the spec:` in its
doc comment.  Everything else is a direct translation of the Rust source.
-/

/-- Values stored in rows.  A small concrete fragment of the SATS
`AlgebraicValue` type, sufficient for the claims: the incremental engine only
inspects the `U8` case (the injected `__op_type__` marker column). -/
inductive AlgebraicValue where
  | u8 (n : Nat)
  | u64 (n : Nat)
  | str (s : String)
deriving DecidableEq, Repr

/-- Header of a table: its name and its field names.  Field positions are
discovered by name (`find_pos_by_name`). -/
structure Header where
  table_name : String
  fields : List String
deriving DecidableEq, Repr

/-- A physical database table reference (`DbTable`). -/
structure DbTable where
  head : Header
  table_id : Nat
  table_access : Nat
deriving DecidableEq, Repr

/-- A row together with its optional precomputed identity (`RelValue` with its
`id : Option DataKey` field).  `DataKey` is modelled as `Nat`. -/
structure RelValue where
  data : List AlgebraicValue
  id : Option Nat
deriving DecidableEq, Repr

/-- An in-memory (virtual) table (`MemTable`). -/
structure MemTable where
  head : Header
  table_access : Nat
  data : List RelValue
deriving DecidableEq, Repr

/-- The source of a query expression: a physical table or a virtual one. -/
inductive SourceExpr where
  | memTable (t : MemTable)
  | dbTable (t : DbTable)
deriving DecidableEq, Repr

mutual
/-- A query expression: a source and a list of operators
(`spacetimedb_vm::expr::QueryExpr`). -/
inductive QueryExpr where
  | mk (source : SourceExpr) (query : List QueryOp)

/-- A query operator.  The subscription code only inspects whether an operator
is an `IndexJoin` and, if so, its `probe_side`; the remaining `IndexJoin`
fields and all other operator kinds are irrelevant to it and collapsed. -/
inductive QueryOp where
  | indexJoin (probe_side : QueryExpr)
  | other
end

/-- Source of a query expression. -/
def QueryExpr.source : QueryExpr → SourceExpr
  | .mk s _ => s

/-- Operator list of a query expression. -/
def QueryExpr.query : QueryExpr → List QueryOp
  | .mk _ q => q

/-- The `SourceExpr::get_db_table` accessor: `Some` iff the source is a
physical table. -/
def SourceExpr.get_db_table : SourceExpr → Option DbTable
  | .dbTable t => some t
  | .memTable _ => none

/-- Header of a source expression. -/
def SourceExpr.head : SourceExpr → Header
  | .dbTable t => t.head
  | .memTable m => m.head

/-- Access level of a source expression. -/
def SourceExpr.access : SourceExpr → Nat
  | .dbTable t => t.table_access
  | .memTable m => m.table_access

/-- A wire-level table operation (`TableOp`): `op_type` (0 = delete,
1 = insert), the serialized primary key, and the row. -/
structure TableOp where
  op_type : Nat
  row_pk : List Nat
  row : List AlgebraicValue
deriving DecidableEq, Repr

/-- Per-table bucket of operations (`DatabaseTableUpdate`). -/
structure DatabaseTableUpdate where
  table_id : Nat
  table_name : String
  ops : List TableOp
deriving DecidableEq, Repr

/-- A database update: one bucket per affected table (`DatabaseUpdate`). -/
structure DatabaseUpdate where
  tables : List DatabaseTableUpdate
deriving DecidableEq, Repr

/-- The internal `Op` helper of `subscription.rs`: like `TableOp` but holding
the primary key as a `PrimaryKey` (modelled as `Nat`) rather than bytes. -/
structure Op where
  op_type : Nat
  row_pk : Nat
  row : List AlgebraicValue
deriving DecidableEq, Repr

/-- Serialization of a `PrimaryKey` (`PrimaryKey::to_bytes`).  Modelled from
the spec: `to_bytes()` yields the serialized form used in wire ops; any
injective encoding is faithful. -/
def PrimaryKey.to_bytes (pk : Nat) : List Nat := [pk]

/-- Decoding of a serialized `DataKey` (`DataKey::decode`).  Modelled from the
spec: the inverse of `PrimaryKey.to_bytes` on well-formed input. -/
def DataKey.decode (bytes : List Nat) : Nat := bytes.headD 0

/-- The `From<Op> for TableOp` conversion of `subscription.rs`. -/
def Op.toTableOp (op : Op) : TableOp :=
  { op_type := op.op_type, row_pk := PrimaryKey.to_bytes op.row_pk, row := op.row }

/-- Modelled from the spec: `RelationalDB::pk_for_row`, the storage engine's
canonical hashing of a row's bytes into a `PrimaryKey` (external to the
sources under verification); any fixed function of the row data is faithful. -/
def RelationalDB.pk_for_row (data : List AlgebraicValue) : Nat :=
  let enc : AlgebraicValue → Nat := fun v =>
    match v with
    | .u8 n => 3 * n
    | .u64 n => 3 * n + 1
    | .str s => 3 * s.length + 2
  data.foldl (fun acc v => acc * 2147483647 + enc v + 1) 0

/-- The `pk_for_row` helper of `subscription.rs`: use the row's carried id if
present, else derive the key from the row data. -/
def pk_for_row (row : RelValue) : Nat :=
  match row.id with
  | some data_key => data_key
  | none => RelationalDB.pk_for_row row.data

/-- The name of the injected marker column (`OP_TYPE_FIELD_NAME`). -/
def OP_TYPE_FIELD_NAME : String := "__op_type__"

/-- The supported query kinds (`query::Supported`). -/
inductive Supported where
  | scan
  | semijoin
deriving DecidableEq, Repr

/-- A query expression tagged with its supported kind (`SupportedQuery`). -/
structure SupportedQuery where
  kind : Supported
  expr : QueryExpr

/-- Modelled from the spec: the storage/query engine interface.  `run_query`
executes a query expression in the current transaction and returns a sequence
of `MemTable`s of `RelValue`s, or a database error.  The subscription code
treats it as a black box, so it is a parameter of the model. -/
structure DBModel where
  run_query : QueryExpr → Except String (List MemTable)

/-- Modelled from the spec: `query::to_mem_table` rewrites a query so that its
source is a virtual table holding the update's ops, with the `__op_type__`
column appended to the header and to each row, and each row carrying the
decoded primary key as its id (as `as_rel_value` does in
`to_mem_table_rhs`). -/
def to_mem_table (q : QueryExpr) (t : DatabaseTableUpdate) : QueryExpr :=
  QueryExpr.mk
    (SourceExpr.memTable
      { head := { table_name := q.source.head.table_name,
                  fields := q.source.head.fields ++ [OP_TYPE_FIELD_NAME] },
        table_access := q.source.access,
        data := t.ops.map (fun op =>
          { data := op.row ++ [AlgebraicValue.u8 op.op_type],
            id := some (DataKey.decode op.row_pk) }) })
    q.query

/-- The `Header::find_pos_by_name` lookup: position of a field, by name. -/
def find_pos_by_name (fields : List String) (name : String) : Option Nat :=
  match fields with
  | [] => none
  | f :: rest =>
    if f = name then some 0 else (find_pos_by_name rest name).map (· + 1)

/-- Inner loop of `eval_incremental`: map each result row to an `Op` by
removing the `__op_type__` column at position `pos` (the removed value must be
a `U8`, else the Rust code panics, modelled as an error) and computing the
primary key of the remaining row. -/
def rowsToOps (pos : Nat) : List RelValue → Except String (List Op)
  | [] => .ok []
  | row :: rest =>
    match row.data.get? pos with
    | some (AlgebraicValue.u8 t) =>
      match rowsToOps pos rest with
      | .error e => .error e
      | .ok ops =>
        .ok ({ op_type := t,
               row_pk := pk_for_row { data := row.data.eraseIdx pos, id := row.id },
               row := row.data.eraseIdx pos } :: ops)
    | _ => .error "panic: op_type is not a U8"

/-- Per-result-table part of `eval_incremental`: locate the `__op_type__`
column by name (panic if missing, modelled as an error) and convert the rows. -/
def opsOfMemTable (r : MemTable) : Except String (List Op) :=
  match find_pos_by_name r.head.fields OP_TYPE_FIELD_NAME with
  | none => .error "panic: op_type field not found"
  | some pos => rowsToOps pos r.data

/-- Concatenate the ops of all result tables, in order. -/
def tablesToOps : List MemTable → Except String (List Op)
  | [] => .ok []
  | r :: rest =>
    match opsOfMemTable r with
    | .error e => .error e
    | .ok ops =>
      match tablesToOps rest with
      | .error e => .error e
      | .ok more => .ok (ops ++ more)

/-- The `eval_incremental` function of `subscription.rs`: run the (rewritten)
query, drop empty result tables, and extract an `Op` from each row via the
injected `__op_type__` column. -/
def eval_incremental (db : DBModel) (expr : QueryExpr) : Except String (List Op) :=
  match db.run_query expr with
  | .error e => .error e
  | .ok results => tablesToOps (results.filter (fun r => !r.data.isEmpty))

/-- One side of an `IncrementalJoin`: the physical table and the accumulated
update ops pertaining to it (`JoinSide`). -/
structure JoinSide where
  table : DbTable
  updates : DatabaseTableUpdate

/-- The `JoinSide::inserts` filter: only ops with `op_type == 1`. -/
def JoinSide.inserts (s : JoinSide) : DatabaseTableUpdate :=
  { table_id := s.updates.table_id,
    table_name := s.updates.table_name,
    ops := s.updates.ops.filter (fun op => decide (op.op_type = 1)) }

/-- The `JoinSide::deletes` filter: only ops with `op_type == 0`. -/
def JoinSide.deletes (s : JoinSide) : DatabaseTableUpdate :=
  { table_id := s.updates.table_id,
    table_name := s.updates.table_name,
    ops := s.updates.ops.filter (fun op => decide (op.op_type = 0)) }

/-- The `IncrementalJoin` helper of `subscription.rs`. -/
structure IncrementalJoin where
  expr : QueryExpr
  lhs : JoinSide
  rhs : JoinSide

/-- The `find_map` in `IncrementalJoin::new`: the first `IndexJoin` operator
whose probe side has a physical table, if any. -/
def findRhsTable : List QueryOp → Option DbTable
  | [] => none
  | QueryOp.indexJoin probe :: rest =>
    match probe.source with
    | SourceExpr.dbTable t => some t
    | SourceExpr.memTable _ => findRhsTable rest
  | QueryOp.other :: rest => findRhsTable rest

/-- The update-partitioning loop of `IncrementalJoin::new`: ops of updates
whose table id equals the LHS id go left, else those equal to the RHS id go
right, all others are dropped. -/
def partitionOps (ltid rtid : Nat) : List DatabaseTableUpdate → List TableOp × List TableOp
  | [] => ([], [])
  | u :: rest =>
    let r := partitionOps ltid rtid rest
    if u.table_id = ltid then (u.ops ++ r.1, r.2)
    else if u.table_id = rtid then (r.1, u.ops ++ r.2)
    else r

/-- The `IncrementalJoin::new` constructor: locate the LHS physical table from
the expression source and the RHS from the first `IndexJoin` with a physical
probe side; partition the updates by table id; `none` iff both buckets are
empty. -/
def IncrementalJoin.new (expr : QueryExpr) (updates : List DatabaseTableUpdate) :
    Except String (Option IncrementalJoin) :=
  match expr.source with
  | SourceExpr.memTable _ => .error "expression without physical source table"
  | SourceExpr.dbTable lt =>
    match findRhsTable expr.query with
    | none => .error "rhs table not found"
    | some rt =>
      let part := partitionOps lt.table_id rt.table_id updates
      if part.1.isEmpty && part.2.isEmpty then .ok none
      else
        .ok (some
          { expr := expr,
            lhs := { table := lt,
                     updates := { table_id := lt.table_id,
                                  table_name := lt.head.table_name,
                                  ops := part.1 } },
            rhs := { table := rt,
                     updates := { table_id := rt.table_id,
                                  table_name := rt.head.table_name,
                                  ops := part.2 } } })

/-- Replace the probe side of the first `IndexJoin` operator with the given
virtual table (the loop of `to_mem_table_rhs`, which breaks after the first
`IndexJoin`). -/
def setFirstProbe : List QueryOp → MemTable → List QueryOp
  | [], _ => []
  | QueryOp.indexJoin probe :: rest, virt =>
    QueryOp.indexJoin (QueryExpr.mk (SourceExpr.memTable virt) probe.query) :: rest
  | QueryOp.other :: rest, virt => QueryOp.other :: setFirstProbe rest virt

/-- The `IncrementalJoin::to_mem_table_rhs` method: replace the RHS of the
join with a virtual table of the given update's ops, each row carrying the
decoded `row_pk` as its id (`as_rel_value`). -/
def IncrementalJoin.to_mem_table_rhs (j : IncrementalJoin) (updates : DatabaseTableUpdate) :
    QueryExpr :=
  QueryExpr.mk j.expr.source
    (setFirstProbe j.expr.query
      { head := j.rhs.table.head,
        table_access := j.rhs.table.table_access,
        data := updates.ops.map (fun op =>
          { data := op.row, id := some (DataKey.decode op.row_pk) }) })

/-- The `{A join B+}` / `{A join B-}` arms of `IncrementalJoin::eval`: run the
query with the rewritten RHS and tag every resulting row with the fixed
`op_type` `t` (1 for the insert arm, 0 for the delete arm). -/
def rhsRunOps (db : DBModel) (expr : QueryExpr) (t : Nat) : Except String (List Op) :=
  match db.run_query expr with
  | .error e => .error e
  | .ok results =>
    .ok (((results.filter (fun r => !r.data.isEmpty)).map (fun r =>
      r.data.map (fun row =>
        { op_type := t, row_pk := pk_for_row row, row := row.data }))).flatten)

/-- Model of `HashMap<PrimaryKey, Op>` as an association list keyed by the
op's primary key.  `hmInsert` is `HashMap::insert`: replace the value if the
key is present, else add the entry. -/
def hmInsert (m : List (Nat × Op)) (op : Op) : List (Nat × Op) :=
  if m.any (fun p => decide (p.1 = op.row_pk)) then
    m.map (fun p => if p.1 = op.row_pk then (op.row_pk, op) else p)
  else m ++ [(op.row_pk, op)]

/-- `HashMap::extend` with entries `(op.row_pk, op)`. -/
def hmExtend (m : List (Nat × Op)) : List Op → List (Nat × Op)
  | [] => m
  | op :: ops => hmExtend (hmInsert m op) ops

/-- `iter().map(|op| (op.row_pk, op)).collect::<HashMap<_, _>>()`. -/
def hmCollect (ops : List Op) : List (Nat × Op) := hmExtend [] ops

/-- Keys of the map model. -/
def hmKeys (m : List (Nat × Op)) : List Nat := m.map (·.1)

/-- `HashMap::contains_key`. -/
def hmContains (m : List (Nat × Op)) (k : Nat) : Bool :=
  m.any (fun p => decide (p.1 = k))

/-- The symmetric difference of the key sets, as built in
`IncrementalJoin::eval`. -/
def symDiff (ins del : List (Nat × Op)) : List Nat :=
  (hmKeys ins).filter (fun k => !hmContains del k) ++
    (hmKeys del).filter (fun k => !hmContains ins k)

/-- `HashMap::retain` keeping only keys in `sym`. -/
def hmRetain (m : List (Nat × Op)) (sym : List Nat) : List (Nat × Op) :=
  m.filter (fun p => decide (p.1 ∈ sym))

/-- `HashMap::into_values`. -/
def hmValues (m : List (Nat × Op)) : List Op := m.map (·.2)

/-- The `IncrementalJoin::eval` method: build the insert set
`{A+ join B} U {A join B+}` and the delete set
`{A- join B} U {A join B-} U {A- join B-}` keyed by primary key, restrict both
to the symmetric difference of their key sets, and emit all retained deletes
followed by all retained inserts. -/
def IncrementalJoin.eval (db : DBModel) (j : IncrementalJoin) : Except String (List Op) :=
  match eval_incremental db (to_mem_table j.expr j.lhs.inserts) with
  | .error e => .error e
  | .ok a =>
    match rhsRunOps db (j.to_mem_table_rhs j.rhs.inserts) 1 with
    | .error e => .error e
    | .ok b =>
      match eval_incremental db (to_mem_table j.expr j.lhs.deletes) with
      | .error e => .error e
      | .ok a2 =>
        match rhsRunOps db (j.to_mem_table_rhs j.rhs.deletes) 0 with
        | .error e => .error e
        | .ok b2 =>
          match eval_incremental db
              (to_mem_table (j.to_mem_table_rhs j.rhs.deletes) j.lhs.deletes) with
          | .error e => .error e
          | .ok c =>
            let inserts := hmExtend (hmCollect a) b
            let deletes := hmExtend (hmExtend (hmCollect a2) b2) c
            let sym := symDiff inserts deletes
            .ok (hmValues (hmRetain deletes sym) ++ hmValues (hmRetain inserts sym))

/-- The `seen : HashSet<(TableId, PrimaryKey)>` deduplication set. -/
abbrev Seen := List (Nat × Nat)

/-- The `table_ops : HashMap<TableId, (TableName, Vec<TableOp>)>` accumulator. -/
abbrev TableOpsMap := List (Nat × String × List TableOp)

/-- Deduplicating conversion of `Op`s to `TableOp`s against the shared `seen`
set, as both arms of `eval_incr` do: an op is emitted iff `(tid, row_pk)` was
not yet seen, in which case the pair is also added to `seen`. -/
def dedupOps (tid : Nat) : List Op → Seen → List TableOp × Seen
  | [], seen => ([], seen)
  | op :: ops, seen =>
    if (tid, op.row_pk) ∈ seen then dedupOps tid ops seen
    else
      let r := dedupOps tid ops ((tid, op.row_pk) :: seen)
      (Op.toTableOp op :: r.1, r.2)

/-- The `table_ops.entry(tid).or_insert_with(..)` followed by pushing `tops`:
append to the existing bucket (keeping its name), or create the bucket. -/
def tableOpsAdd (m : TableOpsMap) (tid : Nat) (name : String) (tops : List TableOp) :
    TableOpsMap :=
  if m.any (fun e => decide (e.1 = tid)) then
    m.map (fun e => if e.1 = tid then (e.1, e.2.1, e.2.2 ++ tops) else e)
  else m ++ [(tid, name, tops)]

/-- Inner loop of the `Scan` arm of `eval_incr`: for each update bucket of the
query's source table, rewrite the query over the virtual table of its ops,
evaluate incrementally, and push the deduplicated ops. -/
def scanTables (db : DBModel) (expr : QueryExpr) :
    List DatabaseTableUpdate → TableOpsMap × Seen → Except String (TableOpsMap × Seen)
  | [], st => .ok st
  | table :: rest, st =>
    match eval_incremental db (to_mem_table expr table) with
    | .error e => .error e
    | .ok ops =>
      let d := dedupOps table.table_id ops st.2
      scanTables db expr rest
        (tableOpsAdd st.1 table.table_id table.table_name d.1, d.2)

/-- One iteration of the query loop of `QuerySet::eval_incr`. -/
def evalIncrQuery (db : DBModel) (u : DatabaseUpdate) (st : TableOpsMap × Seen)
    (q : SupportedQuery) : Except String (TableOpsMap × Seen) :=
  match q.kind with
  | Supported.scan =>
    match q.expr.source with
    | SourceExpr.memTable _ => .error "expression without physical source table"
    | SourceExpr.dbTable t =>
      scanTables db q.expr
        (u.tables.filter (fun tb => decide (tb.table_id = t.table_id))) st
  | Supported.semijoin =>
    match IncrementalJoin.new q.expr u.tables with
    | .error e => .error e
    | .ok none => .ok st
    | .ok (some plan) =>
      match IncrementalJoin.eval db plan with
      | .error e => .error e
      | .ok ops =>
        let d := dedupOps plan.lhs.table.table_id ops st.2
        .ok (tableOpsAdd st.1 plan.lhs.table.table_id
          plan.lhs.table.head.table_name d.1, d.2)

/-- The query loop of `QuerySet::eval_incr` over the set's iteration order. -/
def evalIncrQueries (db : DBModel) (u : DatabaseUpdate) :
    List SupportedQuery → TableOpsMap × Seen → Except String (TableOpsMap × Seen)
  | [], st => .ok st
  | q :: qs, st =>
    match evalIncrQuery db u st q with
    | .error e => .error e
    | .ok st2 => evalIncrQueries db u qs st2

/-- The final loop of `eval`/`eval_incr`: drop empty buckets and emit the rest
as `DatabaseTableUpdate`s. -/
def finalize (m : TableOpsMap) : DatabaseUpdate :=
  { tables := (m.filter (fun e => !e.2.2.isEmpty)).map (fun e =>
      { table_id := e.1, table_name := e.2.1, ops := e.2.2 }) }

/-- The `QuerySet::eval_incr` method.  The `QuerySet` is given as the list of
its queries in iteration order (a `BTreeSet` iterates in its sorted order). -/
def QuerySet.eval_incr (db : DBModel) (qs : List SupportedQuery) (u : DatabaseUpdate) :
    Except String DatabaseUpdate :=
  match evalIncrQueries db u qs ([], []) with
  | .error e => .error e
  | .ok st => .ok (finalize st.1)

/-- One iteration of the query loop of `QuerySet::eval`: queries whose source
is not a physical table are silently skipped; otherwise every row of every
result table becomes an insert op, deduplicated against `seen`. -/
def evalQuery (db : DBModel) (st : TableOpsMap × Seen) (q : SupportedQuery) :
    Except String (TableOpsMap × Seen) :=
  match q.expr.source with
  | SourceExpr.memTable _ => .ok st
  | SourceExpr.dbTable t =>
    match db.run_query q.expr with
    | .error e => .error e
    | .ok results =>
      let ops := ((results.map (fun r => r.data)).flatten).map (fun row =>
        { op_type := 1, row_pk := pk_for_row row, row := row.data : Op })
      let d := dedupOps t.table_id ops st.2
      .ok (tableOpsAdd st.1 t.table_id t.head.table_name d.1, d.2)

/-- The query loop of `QuerySet::eval`. -/
def evalQueries (db : DBModel) :
    List SupportedQuery → TableOpsMap × Seen → Except String (TableOpsMap × Seen)
  | [], st => .ok st
  | q :: qs, st =>
    match evalQuery db st q with
    | .error e => .error e
    | .ok st2 => evalQueries db qs st2

/-- The `QuerySet::eval` method. -/
def QuerySet.eval (db : DBModel) (qs : List SupportedQuery) :
    Except String DatabaseUpdate :=
  match evalQueries db qs ([], []) with
  | .error e => .error e
  | .ok st => .ok (finalize st.1)

/-- All ops emitted by a `DatabaseUpdate` for a given `(table_id, row_pk)`
pair, used to state the deduplication invariant. -/
def opsFor (u : DatabaseUpdate) (tid : Nat) (pkb : List Nat) : List TableOp :=
  (u.tables.map (fun t =>
    if t.table_id = tid then t.ops.filter (fun top => decide (top.row_pk = pkb))
    else [])).flatten

/-- The same, over the in-progress `table_ops` accumulator. -/
def opsForM (m : TableOpsMap) (tid : Nat) (pkb : List Nat) : List TableOp :=
  (m.map (fun e =>
    if e.1 = tid then e.2.2.filter (fun top => decide (top.row_pk = pkb))
    else [])).flatten

/-- Deletes-before-inserts check for a bucket: no op with `op_type = 0` occurs
after an op with `op_type = 1`. -/
def deletesBeforeInserts : List TableOp → Bool
  | [] => true
  | op :: rest =>
    (if op.op_type = 1 then rest.all (fun o => decide (o.op_type ≠ 0)) else true)
      && deletesBeforeInserts rest

/-- Deletes-before-inserts check for a list of internal `Op`s. -/
def deletesBeforeInsertsOps : List Op → Bool
  | [] => true
  | op :: rest =>
    (if op.op_type = 1 then rest.all (fun o => decide (o.op_type ≠ 0)) else true)
      && deletesBeforeInsertsOps rest

/-- Modelled from the spec: the `INVALID` buffer-handle sentinel of
`wasm_common` (not under the verified sources).  Per the spec a reducer
"returns `0` (success) or a non-zero buffer handle", and for `__setup__`
"a zero-handle return is success". -/
def INVALID : Nat := 0

/-- The `BufferIdx::is_invalid` test. -/
def is_invalid (h : Nat) : Bool := decide (h = INVALID)

/-- Modelled from the spec: the per-instance buffer table mapping handles to
byte arrays. -/
abbrev BufferTable := List (Nat × List Nat)

/-- Modelled from the spec: `take_buffer` removes and returns the bytes of a
live handle; `none` if the handle is unknown (or the sentinel). -/
def take_buffer (bufs : BufferTable) (h : Nat) : Option (List Nat) :=
  if is_invalid h then none
  else match bufs.find? (fun p => decide (p.1 = h)) with
    | some p => some p.2
    | none => none

/-- Modelled from the spec: UTF-8-lossy decoding of bytes into a string
(`string_from_utf8_lossy_owned`); ASCII bytes are preserved, the rest are
replaced. -/
def utf8_lossy (bytes : List Nat) : String :=
  String.mk (bytes.map (fun b => if b < 128 then Char.ofNat b else '?'))

/-- Bytes of an ASCII string (`str::as_bytes`). -/
def strBytes (s : String) : List Nat := s.data.map Char.toNat

/-- The `wasmer_metering::MeteringPoints` result type. -/
inductive MeteringPoints where
  | remaining (x : Nat)
  | exhausted
deriving DecidableEq, Repr

/-- The `get_remaining_points` helper of `wasmer_module.rs`: a live count, or
0 for the exhausted sentinel. -/
def get_remaining_points : MeteringPoints → Nat
  | MeteringPoints.remaining x => x
  | MeteringPoints.exhausted => 0

/-- Modelled from the spec: the metering middleware.  The budget is set before
the call, the instrumented bytecode decrements it by the work performed
(`cost`), and reaching zero traps, reported as the `Exhausted` sentinel. -/
def meterAfter (budget cost : Nat) : MeteringPoints :=
  if cost < budget then MeteringPoints.remaining (budget - cost)
  else MeteringPoints.exhausted

/-- The `EnergyStats` of a call. -/
structure EnergyStats where
  used : Nat
  remaining : Nat
deriving DecidableEq, Repr

/-- The result of a transaction function call (`ExecuteResult`), with the
call result nested as in the Rust code: the outer `Except` is a guest trap
(`RuntimeError`), the inner one a reducer-reported error message. -/
structure ExecuteResult where
  energy : EnergyStats
  call_result : Except String (Except String Unit)

/-- Interpretation of the reducer's `u32` return value in
`call_tx_function`: the invalid sentinel means success; any other value is a
buffer handle whose contents become the error message; an unknown or consumed
handle is a runtime error. -/
def interpretReturn (bufs : BufferTable) (ret : Nat) : Except String (Except String Unit) :=
  if is_invalid ret then .ok (.ok ())
  else
    match take_buffer bufs ret with
    | some bytes => .ok (.error (utf8_lossy bytes))
    | none => .error "invalid buffer handle"

/-- The `call_tx_function` method of `WasmerInstance`.  The guest's behaviour
is summarized by the energy `cost` it consumes and its `outcome` (a trap
message or a `u32` return value); `bufs` is the state of the buffer table when
the return value is interpreted.  Exhausting the budget traps the guest. -/
def call_tx_function (budget cost : Nat) (outcome : Except String Nat)
    (bufs : BufferTable) : ExecuteResult :=
  let points := meterAfter budget cost
  let result : Except String (Except String Unit) :=
    if cost < budget then
      match outcome with
      | .error e => .error e
      | .ok ret => interpretReturn bufs ret
    else .error "energy exhausted"
  let remaining := get_remaining_points points
  { energy := { used := budget - remaining, remaining := remaining },
    call_result := result }

/-- Initialization errors of `instantiate` (`InitializationError`). -/
inductive InitializationError where
  | instantiation
  | runtimeError (func : String)
  | setup (msg : String)
deriving DecidableEq, Repr

/-- The `SETUP_DUNDER` export name. -/
def SETUP_DUNDER : String := "__setup__"

/-- The preinit loop of `instantiate`: call every preinit export in the given
order; the first trap aborts with `RuntimeError` carrying that export's
name.  `preinitRes f` is `some msg` when calling `f` traps. -/
def runPreinits (preinitRes : String → Option String) : List String →
    Except InitializationError Unit
  | [] => .ok ()
  | f :: fs =>
    match preinitRes f with
    | some _ => .error (InitializationError.runtimeError f)
    | none => runPreinits preinitRes fs

/-- The `instantiate` method of `WasmerModule` (preinit and setup part).  The
guest is summarized by the trap behaviour of its preinit exports, by whether
`__setup__` exists and what it returns (`none` when absent, otherwise a trap
or a `u32` handle), and by the buffer table at the time the setup return
value is inspected. -/
def instantiate (preinits : List String) (preinitRes : String → Option String)
    (setup : Option (Except String Nat)) (bufs : BufferTable) :
    Except InitializationError Unit :=
  match runPreinits preinitRes preinits with
  | .error e => .error e
  | .ok _ =>
    match setup with
    | none => .ok ()
    | some (.error _) => .error (InitializationError.runtimeError SETUP_DUNDER)
    | some (.ok ret) =>
      if is_invalid ret then .ok ()
      else
        .error (InitializationError.setup
          (utf8_lossy ((take_buffer bufs ret).getD (strBytes "unknown error"))))

/-- Extract the payload of a successful `eval`/`eval_incr` call (used only to
name concrete outputs in witness statements). -/
def getOkUpdate (x : Except String DatabaseUpdate) : DatabaseUpdate :=
  match x with
  | .ok o => o
  | .error _ => { tables := [] }

/-- Extract the payload of a successful op-list computation. -/
def getOkOps (x : Except String (List Op)) : List Op :=
  match x with
  | .ok o => o
  | .error _ => []

/-- Concrete database model whose query engine returns no rows, used to
instantiate hypotheses of the join theorems. -/
def dbEmpty : DBModel := ⟨fun _ => .ok []⟩

/-- Concrete database model that evaluates a query over a virtual table to
exactly that table (the behaviour of `run_query` on a rewritten query with no
further operators), and returns no rows for physical sources. -/
def dbMemId : DBModel :=
  ⟨fun q =>
    match q.source with
    | SourceExpr.memTable m => .ok [m]
    | SourceExpr.dbTable _ => .ok []⟩

/-- Concrete LHS table for the join instances. -/
def tableA : DbTable := ⟨⟨"A", ["id"]⟩, 1, 0⟩

/-- Concrete RHS table for the join instances. -/
def tableB : DbTable := ⟨⟨"B", ["a_id"]⟩, 2, 0⟩

/-- Concrete semijoin expression `A index-join B`. -/
def exprAB : QueryExpr :=
  QueryExpr.mk (SourceExpr.dbTable tableA)
    [QueryOp.indexJoin (QueryExpr.mk (SourceExpr.dbTable tableB) [])]

/-- Concrete incremental join instance over `exprAB` with one LHS insert. -/
def joinC1 : IncrementalJoin :=
  { expr := exprAB,
    lhs := { table := tableA,
             updates := ⟨1, "A", [⟨1, [5], [AlgebraicValue.u64 5]⟩]⟩ },
    rhs := { table := tableB, updates := ⟨2, "B", []⟩ } }

/-- Concrete scan query over the physical table `A`. -/
def scanA : SupportedQuery := ⟨Supported.scan, QueryExpr.mk (SourceExpr.dbTable tableA) []⟩

/-- Concrete transaction update against table `A` listing an insert before a
delete (two distinct rows). -/
def updateInsDel : DatabaseUpdate :=
  ⟨[⟨1, "A", [⟨1, [10], [AlgebraicValue.u64 10]⟩, ⟨0, [20], [AlgebraicValue.u64 20]⟩]⟩]⟩

/-- The claim-C2 check: do all buckets of the incremental evaluation of
`scanA` against `updateInsDel` list deletes before inserts? -/
def checkC2 : Bool :=
  match QuerySet.eval_incr dbMemId [scanA] updateInsDel with
  | .ok out => out.tables.all (fun t => deletesBeforeInserts t.ops)
  | .error _ => true

/-- Concrete single-insert update against table `A`. -/
def updateIns : DatabaseUpdate := ⟨[⟨1, "A", [⟨1, [10], [AlgebraicValue.u64 10]⟩]⟩]⟩

/-- Output of the concrete single-query incremental evaluation. -/
def outC3a : DatabaseUpdate := getOkUpdate (QuerySet.eval_incr dbMemId [scanA] updateIns)

/-- Output of the concrete two-query incremental evaluation. -/
def outC3b : DatabaseUpdate :=
  getOkUpdate (QuerySet.eval_incr dbMemId ([scanA] ++ [scanA]) updateIns)

/-- Concrete database model that returns one committed row for queries over a
physical source. -/
def dbOneRow : DBModel :=
  ⟨fun q =>
    match q.source with
    | SourceExpr.dbTable t => .ok [⟨t.head, t.table_access, [⟨[AlgebraicValue.u64 5], some 5⟩]⟩]
    | SourceExpr.memTable m => .ok [m]⟩

/-- Output of the concrete direct evaluation. -/
def outC7 : DatabaseUpdate := getOkUpdate (QuerySet.eval dbOneRow [scanA])

/-- The single bucket of the concrete direct evaluation. -/
def bucketC7 : DatabaseTableUpdate := ⟨1, "A", [⟨1, [5], [AlgebraicValue.u64 5]⟩]⟩

/-- Concrete rewritten (virtual-table) query for the `eval_incremental`
witness. -/
def exprC8 : QueryExpr := to_mem_table scanA.expr ⟨1, "A", [⟨1, [10], [AlgebraicValue.u64 10]⟩]⟩

/-- Ops of the concrete incremental evaluation. -/
def opsC8 : List Op := getOkOps (eval_incremental dbMemId exprC8)

/-- Result tables of the concrete incremental evaluation. -/
def resultsC8 : List MemTable :=
  match dbMemId.run_query exprC8 with
  | .ok rs => rs
  | .error _ => []

/-- Concrete updates for an `IncrementalJoin::new` instance: one bucket per
side plus one unrelated bucket. -/
def updatesC9 : List DatabaseTableUpdate :=
  [⟨1, "A", [⟨1, [5], [AlgebraicValue.u64 5]⟩]⟩,
   ⟨2, "B", [⟨0, [6], [AlgebraicValue.u64 6]⟩]⟩,
   ⟨3, "C", [⟨1, [7], [AlgebraicValue.u64 7]⟩]⟩]

/-- Concrete scan query whose source is a virtual table rather than a
physical one. -/
def scanVirtual : SupportedQuery :=
  ⟨Supported.scan, QueryExpr.mk (SourceExpr.memTable ⟨⟨"m", ["id"]⟩, 0, []⟩) []⟩

/-- Invariant of the `(table_ops, seen)` state threaded through the query
loops of `eval` and `eval_incr`: each `(table_id, row_pk)` pair has at most
one op accumulated, every accumulated pair is recorded in `seen`, and bucket
keys are distinct. -/
def StInv (st : TableOpsMap × Seen) : Prop :=
  (∀ tid pkb, (opsForM st.1 tid pkb).length ≤ 1) ∧
  (∀ tid pk, opsForM st.1 tid (PrimaryKey.to_bytes pk) ≠ [] → (tid, pk) ∈ st.2) ∧
  (st.1.map (fun e => e.1)).Nodup

/-! ### Lemmas and claim theorems -/

theorem runPreinits_ok (preinitRes : String → Option String) (l : List String)
    (h : ∀ g ∈ l, preinitRes g = none) : runPreinits preinitRes l = .ok () := by
  induction l with
  | nil => rfl
  | cons f fs ih =>
    have hf := h f (by simp)
    simp only [runPreinits, hf]
    exact ih (fun g hg => h g (by simp [hg]))

/-- C4: for every call with budget `b`, the returned `EnergyStats` satisfies
`used = b - remaining` and `0 ≤ remaining ≤ b` (hence `used + remaining = b`),
with `remaining` taken as 0 when the meter reports the exhausted sentinel. -/
theorem call_tx_function_energy_stats (budget cost : Nat) (outcome : Except String Nat)
    (bufs : BufferTable) :
    (call_tx_function budget cost outcome bufs).energy.remaining ≤ budget ∧
    (call_tx_function budget cost outcome bufs).energy.used
      = budget - (call_tx_function budget cost outcome bufs).energy.remaining ∧
    (call_tx_function budget cost outcome bufs).energy.used
      + (call_tx_function budget cost outcome bufs).energy.remaining = budget ∧
    (meterAfter budget cost = MeteringPoints.exhausted →
      (call_tx_function budget cost outcome bufs).energy.remaining = 0) := by
  simp only [call_tx_function, meterAfter, get_remaining_points]
  by_cases h : cost < budget
  · simp [h]
  · simp [h]

/-- Witness for C4 at a concrete exhausted call. -/
theorem call_tx_function_energy_stats_witness :
    (call_tx_function 5 9 (.ok 0) []).energy.remaining ≤ 5 ∧
    (call_tx_function 5 9 (.ok 0) []).energy.used
      = 5 - (call_tx_function 5 9 (.ok 0) []).energy.remaining ∧
    (call_tx_function 5 9 (.ok 0) []).energy.used
      + (call_tx_function 5 9 (.ok 0) []).energy.remaining = 5 ∧
    (meterAfter 5 9 = MeteringPoints.exhausted →
      (call_tx_function 5 9 (.ok 0) []).energy.remaining = 0) :=
  call_tx_function_energy_stats 5 9 (.ok 0) []

/-- C5: a zero return value means success; a non-zero return value is taken
as a buffer handle whose contents become the UTF-8-lossy error message; an
unknown or already-consumed handle makes the call's result an error. -/
theorem call_tx_function_return_interpretation (budget cost : Nat) (bufs : BufferTable)
    (hcost : cost < budget) :
    ((call_tx_function budget cost (.ok 0) bufs).call_result = .ok (.ok ())) ∧
    (∀ h bytes, h ≠ 0 → take_buffer bufs h = some bytes →
      (call_tx_function budget cost (.ok h) bufs).call_result
        = .ok (.error (utf8_lossy bytes))) ∧
    (∀ h, h ≠ 0 → take_buffer bufs h = none →
      (call_tx_function budget cost (.ok h) bufs).call_result
        = .error "invalid buffer handle") := by
  refine ⟨?_, ?_, ?_⟩
  · simp [call_tx_function, hcost, interpretReturn, is_invalid, INVALID]
  · intro h bytes hne htake
    simp [call_tx_function, hcost, interpretReturn, is_invalid, INVALID, hne, htake]
  · intro h hne htake
    simp [call_tx_function, hcost, interpretReturn, is_invalid, INVALID, hne, htake]

/-- Witness for C5 at a concrete call with one live buffer. -/
theorem call_tx_function_return_interpretation_witness :
    ((call_tx_function 2 1 (.ok 0) [(3, [104, 105])]).call_result = .ok (.ok ())) ∧
    (∀ h bytes, h ≠ 0 → take_buffer [(3, [104, 105])] h = some bytes →
      (call_tx_function 2 1 (.ok h) [(3, [104, 105])]).call_result
        = .ok (.error (utf8_lossy bytes))) ∧
    (∀ h, h ≠ 0 → take_buffer [(3, [104, 105])] h = none →
      (call_tx_function 2 1 (.ok h) [(3, [104, 105])]).call_result
        = .error "invalid buffer handle") :=
  call_tx_function_return_interpretation 2 1 [(3, [104, 105])] (by decide)

/-- C6: every preinit export runs in list order and a trap in one of them
yields `Runtime` with that export's name (the first trapping export in order
decides); afterwards, a missing `__setup__` or a zero return is success, and
a non-zero return takes the corresponding buffer and yields `Setup` with its
UTF-8-lossy contents. -/
theorem instantiate_preinit_setup (preinits : List String)
    (preinitRes : String → Option String) (setup : Option (Except String Nat))
    (bufs : BufferTable) :
    (∀ l1 f l2 msg, preinits = l1 ++ f :: l2 → (∀ g ∈ l1, preinitRes g = none) →
      preinitRes f = some msg →
      instantiate preinits preinitRes setup bufs
        = .error (InitializationError.runtimeError f)) ∧
    ((∀ g ∈ preinits, preinitRes g = none) →
      (setup = none → instantiate preinits preinitRes setup bufs = .ok ()) ∧
      (setup = some (.ok 0) → instantiate preinits preinitRes setup bufs = .ok ()) ∧
      (∀ ret bytes, ret ≠ 0 → setup = some (.ok ret) → take_buffer bufs ret = some bytes →
        instantiate preinits preinitRes setup bufs
          = .error (InitializationError.setup (utf8_lossy bytes)))) := by
  constructor
  · intro l1 f l2 msg hsplit hok hf
    subst hsplit
    have : runPreinits preinitRes (l1 ++ f :: l2)
        = .error (InitializationError.runtimeError f) := by
      induction l1 with
      | nil => simp [runPreinits, hf]
      | cons g gs ih =>
        have hg := hok g (by simp)
        simp only [List.cons_append, runPreinits, hg]
        exact ih (fun g' hg' => hok g' (by simp [hg'])) 
      
    simp [instantiate, this]
  · intro hok
    have hpre := runPreinits_ok preinitRes preinits hok
    refine ⟨?_, ?_, ?_⟩
    · intro hs; simp [instantiate, hpre, hs]
    · intro hs; simp [instantiate, hpre, hs, is_invalid, INVALID]
    · intro ret bytes hne hs htake
      simp [instantiate, hpre, hs, is_invalid, INVALID, hne, htake]

/-- Witness for C6 at a concrete module with one preinit, a failing setup and
a live error buffer. -/
theorem instantiate_preinit_setup_witness :
    instantiate ["__preinit__a"] (fun _ => none) (some (.ok 3)) [(3, strBytes "boom")]
      = .error (InitializationError.setup (utf8_lossy (strBytes "boom"))) :=
  ((instantiate_preinit_setup ["__preinit__a"] (fun _ => none) (some (.ok 3))
      [(3, strBytes "boom")]).2 (fun _ _ => rfl)).2.2 3 (strBytes "boom")
    (by decide) rfl (by decide)

theorem evalQueries_append (db : DBModel) (l1 l2 : List SupportedQuery)
    (st : TableOpsMap × Seen) :
    evalQueries db (l1 ++ l2) st =
      match evalQueries db l1 st with
      | .error e => .error e
      | .ok st2 => evalQueries db l2 st2 := by
  induction l1 generalizing st with
  | nil => rfl
  | cons q qs ih =>
    simp only [List.cons_append, evalQueries]
    cases evalQuery db st q with
    | error e => rfl
    | ok st2 => exact ih st2

theorem evalIncrQueries_append (db : DBModel) (u : DatabaseUpdate)
    (l1 l2 : List SupportedQuery) (st : TableOpsMap × Seen) :
    evalIncrQueries db u (l1 ++ l2) st =
      match evalIncrQueries db u l1 st with
      | .error e => .error e
      | .ok st2 => evalIncrQueries db u l2 st2 := by
  induction l1 generalizing st with
  | nil => rfl
  | cons q qs ih =>
    simp only [List.cons_append, evalIncrQueries]
    cases evalIncrQuery db u st q with
    | error e => rfl
    | ok st2 => exact ih st2

theorem evalQuery_memTable (db : DBModel) (st : TableOpsMap × Seen)
    (q : SupportedQuery) (mt : MemTable) (hq : q.expr.source = SourceExpr.memTable mt) :
    evalQuery db st q = .ok st := by
  simp [evalQuery, hq]

/-- C10: a query whose source is not a physical table contributes nothing to
`QuerySet::eval` (which succeeds as if the query were absent), while the
`Scan` arm of `QuerySet::eval_incr` rejects such a query with the error
"expression without physical source table", short-circuiting the whole
call. -/
theorem eval_skips_eval_incr_rejects (db : DBModel) (qs1 qs2 : List SupportedQuery)
    (q : SupportedQuery) (mt : MemTable) (u : DatabaseUpdate)
    (hq : q.expr.source = SourceExpr.memTable mt) :
    (QuerySet.eval db (qs1 ++ q :: qs2) = QuerySet.eval db (qs1 ++ qs2)) ∧
    (q.kind = Supported.scan →
      ∀ out, QuerySet.eval_incr db (qs1 ++ q :: qs2) u ≠ .ok out) ∧
    (q.kind = Supported.scan →
      QuerySet.eval_incr db [q] u = .error "expression without physical source table") := by
  refine ⟨?_, ?_, ?_⟩
  · simp only [QuerySet.eval, evalQueries_append]
    cases evalQueries db qs1 ([], []) with
    | error e => rfl
    | ok st =>
      simp only [evalQueries, evalQuery_memTable db st q mt hq]
  · intro hkind out
    simp only [QuerySet.eval_incr, evalIncrQueries_append]
    cases evalIncrQueries db u qs1 ([], []) with
    | error e => simp
    | ok st =>
      simp only [evalIncrQueries, evalIncrQuery, hkind, hq]
      simp
  · intro hkind
    simp only [QuerySet.eval_incr, evalIncrQueries, evalIncrQuery, hkind, hq]

/-- Witness for C10 at a concrete virtual-source scan query. -/
theorem eval_skips_eval_incr_rejects_witness :
    (QuerySet.eval dbMemId ([] ++ scanVirtual :: []) = QuerySet.eval dbMemId ([] ++ [])) ∧
    (scanVirtual.kind = Supported.scan →
      ∀ out, QuerySet.eval_incr dbMemId ([] ++ scanVirtual :: []) ⟨[]⟩ ≠ .ok out) ∧
    (scanVirtual.kind = Supported.scan →
      QuerySet.eval_incr dbMemId [scanVirtual] ⟨[]⟩
        = .error "expression without physical source table") :=
  eval_skips_eval_incr_rejects dbMemId [] [] scanVirtual ⟨⟨"m", ["id"]⟩, 0, []⟩ ⟨[]⟩ rfl

theorem dedupOps_mem (tid : Nat) (ops : List Op) (seen : Seen) (top : TableOp)
    (h : top ∈ (dedupOps tid ops seen).1) : ∃ op ∈ ops, top = op.toTableOp := by
  induction ops generalizing seen with
  | nil => simp [dedupOps] at h
  | cons op rest ih =>
    simp only [dedupOps] at h
    by_cases hs : (tid, op.row_pk) ∈ seen
    · rw [if_pos hs] at h
      obtain ⟨o, ho, hto⟩ := ih _ h
      exact ⟨o, by simp [ho], hto⟩
    · rw [if_neg hs] at h
      rcases List.mem_cons.mp h with h | h
      · exact ⟨op, by simp, h⟩
      · obtain ⟨o, ho, hto⟩ := ih _ h
        exact ⟨o, by simp [ho], hto⟩

theorem tableOpsAdd_mem (m : TableOpsMap) (tid : Nat) (name : String)
    (tops : List TableOp) (e' : Nat × String × List TableOp) (top : TableOp)
    (he : e' ∈ tableOpsAdd m tid name tops) (ht : top ∈ e'.2.2) :
    (∃ e ∈ m, top ∈ e.2.2) ∨ top ∈ tops := by
  unfold tableOpsAdd at he
  by_cases hc : m.any (fun e => decide (e.1 = tid))
  · rw [if_pos hc] at he
    obtain ⟨e, he1, he2⟩ := List.mem_map.mp he
    by_cases heq : e.1 = tid
    · rw [if_pos heq] at he2
      subst he2
      rcases List.mem_append.mp ht with h | h
      · exact .inl ⟨e, he1, h⟩
      · exact .inr h
    · rw [if_neg heq] at he2
      subst he2
      exact .inl ⟨e, he1, ht⟩
  · rw [if_neg hc] at he
    rcases List.mem_append.mp he with h | h
    · exact .inl ⟨e', h, ht⟩
    · have : e' = (tid, name, tops) := by simpa using h
      subst this
      exact .inr ht

theorem evalQuery_all_inserts (db : DBModel) (st st2 : TableOpsMap × Seen)
    (q : SupportedQuery) (h : evalQuery db st q = .ok st2)
    (hinv : ∀ e ∈ st.1, ∀ top ∈ e.2.2, top.op_type = 1) :
    ∀ e ∈ st2.1, ∀ top ∈ e.2.2, top.op_type = 1 := by
  unfold evalQuery at h
  cases hsrc : q.expr.source with
  | memTable mt =>
    rw [hsrc] at h
    simp only [Except.ok.injEq] at h
    subst h
    exact hinv
  | dbTable t =>
    rw [hsrc] at h
    cases hrq : db.run_query q.expr with
    | error e => rw [hrq] at h; exact absurd h (by simp)
    | ok results =>
      rw [hrq] at h
      simp only [Except.ok.injEq] at h
      subst h
      intro e he top htop
      rcases tableOpsAdd_mem _ _ _ _ e top he htop with ⟨e0, he0, ht0⟩ | htops
      · exact hinv e0 he0 top ht0
      · obtain ⟨op, hop, hto⟩ := dedupOps_mem _ _ _ _ htops
        obtain ⟨row, _, hrow⟩ := List.mem_map.mp hop
        subst hto
        rw [← hrow]
        rfl

theorem evalQueries_all_inserts (db : DBModel) (qs : List SupportedQuery)
    (st st2 : TableOpsMap × Seen) (h : evalQueries db qs st = .ok st2)
    (hinv : ∀ e ∈ st.1, ∀ top ∈ e.2.2, top.op_type = 1) :
    ∀ e ∈ st2.1, ∀ top ∈ e.2.2, top.op_type = 1 := by
  induction qs generalizing st with
  | nil =>
    simp only [evalQueries, Except.ok.injEq] at h
    subst h
    exact hinv
  | cons q qs ih =>
    simp only [evalQueries] at h
    cases hq : evalQuery db st q with
    | error e => rw [hq] at h; exact absurd h (by simp)
    | ok stm =>
      rw [hq] at h
      exact ih stm h (evalQuery_all_inserts db st stm q hq hinv)

theorem finalize_mem (m : TableOpsMap) (t : DatabaseTableUpdate)
    (h : t ∈ (finalize m).tables) : t.ops ≠ [] ∧ ∃ e ∈ m, e.2.2 = t.ops := by
  unfold finalize at h
  obtain ⟨e, he, het⟩ := List.mem_map.mp h
  have hf := List.mem_filter.mp he
  constructor
  · have : ¬ e.2.2.isEmpty := by simpa using hf.2
    rw [← het]
    simpa [List.isEmpty_iff] using this
  · exact ⟨e, hf.1, by rw [← het]⟩

/-- C7: every op in the `DatabaseUpdate` returned by `QuerySet::eval` is an
insert (`op_type = 1`), and every emitted `DatabaseTableUpdate` has a
non-empty ops list. -/
theorem eval_ops_all_inserts_nonempty (db : DBModel) (qs : List SupportedQuery)
    (out : DatabaseUpdate) (h : QuerySet.eval db qs = .ok out) :
    ∀ t ∈ out.tables, t.ops ≠ [] ∧ ∀ top ∈ t.ops, top.op_type = 1 := by
  unfold QuerySet.eval at h
  cases heq : evalQueries db qs ([], []) with
  | error e => rw [heq] at h; exact absurd h (by simp)
  | ok st =>
    rw [heq] at h
    simp only [Except.ok.injEq] at h
    subst h
    intro t ht
    obtain ⟨hne, e, he, hops⟩ := finalize_mem st.1 t ht
    have hall := evalQueries_all_inserts db qs ([], []) st heq (by simp)
    exact ⟨hne, fun top htop => hall e he top (by rw [hops]; exact htop)⟩

/-- Witness for C7 at a concrete one-row database and its emitted bucket. -/
theorem eval_ops_all_inserts_nonempty_witness :
    bucketC7.ops ≠ [] ∧ ∀ top ∈ bucketC7.ops, top.op_type = 1 :=
  eval_ops_all_inserts_nonempty dbOneRow [scanA] outC7 rfl bucketC7 (by decide)

theorem rowsToOps_mem (pos : Nat) (rows : List RelValue) (ops : List Op)
    (h : rowsToOps pos rows = .ok ops) :
    ∀ op ∈ ops, ∃ row ∈ rows,
      row.data.get? pos = some (AlgebraicValue.u8 op.op_type) ∧
      op.row = row.data.eraseIdx pos ∧
      op.row_pk = pk_for_row { data := row.data.eraseIdx pos, id := row.id } := by
  induction rows generalizing ops with
  | nil =>
    simp only [rowsToOps, Except.ok.injEq] at h
    subst h
    intro op hop
    exact absurd hop (by simp)
  | cons row rest ih =>
    simp only [rowsToOps] at h
    cases hg : row.data.get? pos with
    | none => rw [hg] at h; exact absurd h (by simp)
    | some v =>
      cases v with
      | u8 t =>
        rw [hg] at h
        cases hr : rowsToOps pos rest with
        | error e => rw [hr] at h; exact absurd h (by simp)
        | ok more =>
          rw [hr] at h
          simp only [Except.ok.injEq] at h
          subst h
          intro op hop
          rcases List.mem_cons.mp hop with hop | hop
          · subst hop
            exact ⟨row, by simp, hg, rfl, rfl⟩
          · obtain ⟨row', h1, h2, h3, h4⟩ := ih more hr op hop
            exact ⟨row', by simp [h1], h2, h3, h4⟩
      | u64 n => rw [hg] at h; exact absurd h (by simp)
      | str s => rw [hg] at h; exact absurd h (by simp)

theorem opsOfMemTable_mem (r : MemTable) (ops : List Op)
    (h : opsOfMemTable r = .ok ops) :
    ∃ pos, find_pos_by_name r.head.fields OP_TYPE_FIELD_NAME = some pos ∧
      rowsToOps pos r.data = .ok ops := by
  unfold opsOfMemTable at h
  cases hf : find_pos_by_name r.head.fields OP_TYPE_FIELD_NAME with
  | none => rw [hf] at h; exact absurd h (by simp)
  | some pos => rw [hf] at h; exact ⟨pos, rfl, h⟩

theorem tablesToOps_mem (rs : List MemTable) (ops : List Op)
    (h : tablesToOps rs = .ok ops) (op : Op) (hop : op ∈ ops) :
    ∃ r ∈ rs, ∃ ops1, opsOfMemTable r = .ok ops1 ∧ op ∈ ops1 := by
  induction rs generalizing ops with
  | nil =>
    simp only [tablesToOps, Except.ok.injEq] at h
    subst h
    exact absurd hop (by simp)
  | cons r rest ih =>
    simp only [tablesToOps] at h
    cases h1 : opsOfMemTable r with
    | error e => rw [h1] at h; exact absurd h (by simp)
    | ok o1 =>
      rw [h1] at h
      cases h2 : tablesToOps rest with
      | error e => rw [h2] at h; exact absurd h (by simp)
      | ok more =>
        rw [h2] at h
        simp only [Except.ok.injEq] at h
        subst h
        rcases List.mem_append.mp hop with hm | hm
        · exact ⟨r, by simp, o1, h1, hm⟩
        · obtain ⟨r', hr', ops1, ho, hm'⟩ := ih more h2 hm
          exact ⟨r', by simp [hr'], ops1, ho, hm'⟩

/-- C8: every op produced by `eval_incremental` comes from a result row whose
`__op_type__` column (located by name) supplied the op type and was removed
from the row before the primary key was computed: the emitted row and the key
used for deduplication are those of the row without the marker column. -/
theorem eval_incremental_strips_op_type (db : DBModel) (expr : QueryExpr)
    (results : List MemTable) (ops : List Op)
    (hrq : db.run_query expr = .ok results)
    (h : eval_incremental db expr = .ok ops) :
    ∀ op ∈ ops, ∃ r ∈ results, ∃ pos,
      find_pos_by_name r.head.fields OP_TYPE_FIELD_NAME = some pos ∧
      ∃ row ∈ r.data,
        row.data.get? pos = some (AlgebraicValue.u8 op.op_type) ∧
        op.row = row.data.eraseIdx pos ∧
        op.row_pk = pk_for_row { data := row.data.eraseIdx pos, id := row.id } := by
  unfold eval_incremental at h
  rw [hrq] at h
  intro op hop
  obtain ⟨r, hr, ops1, ho, hm⟩ := tablesToOps_mem _ _ h op hop
  obtain ⟨pos, hpos, hrows⟩ := opsOfMemTable_mem r ops1 ho
  obtain ⟨row, hrow, hg, he, hpk⟩ := rowsToOps_mem pos r.data ops1 hrows op hm
  exact ⟨r, (List.mem_filter.mp hr).1, pos, hpos, row, hrow, hg, he, hpk⟩

/-- Witness for C8 at a concrete rewritten query over a one-op update and its
single emitted op. -/
theorem eval_incremental_strips_op_type_witness :
    ∃ r ∈ resultsC8, ∃ pos,
      find_pos_by_name r.head.fields OP_TYPE_FIELD_NAME = some pos ∧
      ∃ row ∈ r.data,
        row.data.get? pos = some (AlgebraicValue.u8
          ({ op_type := 1, row_pk := 10, row := [AlgebraicValue.u64 10] } : Op).op_type) ∧
        ({ op_type := 1, row_pk := 10, row := [AlgebraicValue.u64 10] } : Op).row
          = row.data.eraseIdx pos ∧
        ({ op_type := 1, row_pk := 10, row := [AlgebraicValue.u64 10] } : Op).row_pk
          = pk_for_row { data := row.data.eraseIdx pos, id := row.id } :=
  eval_incremental_strips_op_type dbMemId exprC8 resultsC8 opsC8 rfl rfl
    ⟨1, 10, [AlgebraicValue.u64 10]⟩ (by decide)

theorem partitionOps_eq (ltid rtid : Nat) (updates : List DatabaseTableUpdate)
    (hne : ltid ≠ rtid) :
    partitionOps ltid rtid updates =
      (((updates.filter (fun u => decide (u.table_id = ltid))).map (fun u => u.ops)).flatten,
       ((updates.filter (fun u => decide (u.table_id = rtid))).map (fun u => u.ops)).flatten) := by
  induction updates with
  | nil => rfl
  | cons u rest ih =>
    simp only [partitionOps, ih]
    by_cases h1 : u.table_id = ltid
    · have h2 : ¬ u.table_id = rtid := by rw [h1]; exact hne
      simp [List.filter, h1, h2, hne, Ne.symm hne]
    · by_cases h2 : u.table_id = rtid
      · simp [List.filter, h1, h2, hne, Ne.symm hne]
      · simp [List.filter, h1, h2]

/-- C9: `IncrementalJoin::new` errors when the expression source is not a
physical table or when no `IndexJoin` operator with a physical probe side
exists; otherwise (for distinct side tables) it partitions the updates' ops
by table id into the LHS and RHS buckets, in update order, and returns `none`
exactly when both buckets are empty. -/
theorem incremental_join_new_characterization (expr : QueryExpr)
    (updates : List DatabaseTableUpdate) :
    (∀ mt, expr.source = SourceExpr.memTable mt →
      IncrementalJoin.new expr updates
        = .error "expression without physical source table") ∧
    (∀ lt, expr.source = SourceExpr.dbTable lt → findRhsTable expr.query = none →
      IncrementalJoin.new expr updates = .error "rhs table not found") ∧
    (∀ lt rt, expr.source = SourceExpr.dbTable lt →
      findRhsTable expr.query = some rt → lt.table_id ≠ rt.table_id →
      (IncrementalJoin.new expr updates = .ok none ↔
        ((updates.filter (fun u => decide (u.table_id = lt.table_id))).map
          (fun u => u.ops)).flatten = [] ∧
        ((updates.filter (fun u => decide (u.table_id = rt.table_id))).map
          (fun u => u.ops)).flatten = []) ∧
      (∀ j, IncrementalJoin.new expr updates = .ok (some j) →
        j.expr = expr ∧ j.lhs.table = lt ∧ j.rhs.table = rt ∧
        j.lhs.updates.ops = ((updates.filter (fun u => decide (u.table_id = lt.table_id))).map
          (fun u => u.ops)).flatten ∧
        j.rhs.updates.ops = ((updates.filter (fun u => decide (u.table_id = rt.table_id))).map
          (fun u => u.ops)).flatten)) := by
  refine ⟨?_, ?_, ?_⟩
  · intro mt hs
    simp [IncrementalJoin.new, hs]
  · intro lt hs hf
    simp [IncrementalJoin.new, hs, hf]
  · intro lt rt hs hf hne
    have hpart := partitionOps_eq lt.table_id rt.table_id updates hne
    constructor
    · constructor
      · intro h
        simp only [IncrementalJoin.new, hs, hf, hpart] at h
        by_cases hb : (((updates.filter (fun u => decide (u.table_id = lt.table_id))).map
            (fun u => u.ops)).flatten).isEmpty
            && (((updates.filter (fun u => decide (u.table_id = rt.table_id))).map
            (fun u => u.ops)).flatten).isEmpty
        · rcases Bool.and_eq_true_iff.mp hb with ⟨hb1, hb2⟩
          exact ⟨List.isEmpty_iff.mp hb1, List.isEmpty_iff.mp hb2⟩
        · rw [if_neg hb] at h
          exact absurd h (by simp)
      · intro ⟨h1, h2⟩
        simp [IncrementalJoin.new, hs, hf, hpart, h1, h2]
    · intro j hj
      simp only [IncrementalJoin.new, hs, hf, hpart] at hj
      by_cases hb : (((updates.filter (fun u => decide (u.table_id = lt.table_id))).map
          (fun u => u.ops)).flatten).isEmpty
          && (((updates.filter (fun u => decide (u.table_id = rt.table_id))).map
          (fun u => u.ops)).flatten).isEmpty
      · rw [if_pos hb] at hj
        exact absurd hj (by simp)
      · rw [if_neg hb] at hj
        simp only [Except.ok.injEq, Option.some.injEq] at hj
        subst hj
        exact ⟨rfl, rfl, rfl, rfl, rfl⟩

/-- Witness for C9 at the concrete semijoin expression and three-bucket
update. -/
theorem incremental_join_new_characterization_witness :
    (IncrementalJoin.new exprAB updatesC9 = .ok none ↔
      ((updatesC9.filter (fun u => decide (u.table_id = tableA.table_id))).map
        (fun u => u.ops)).flatten = [] ∧
      ((updatesC9.filter (fun u => decide (u.table_id = tableB.table_id))).map
        (fun u => u.ops)).flatten = []) ∧
    (∀ j, IncrementalJoin.new exprAB updatesC9 = .ok (some j) →
      j.expr = exprAB ∧ j.lhs.table = tableA ∧ j.rhs.table = tableB ∧
      j.lhs.updates.ops = ((updatesC9.filter (fun u => decide (u.table_id = tableA.table_id))).map
        (fun u => u.ops)).flatten ∧
      j.rhs.updates.ops = ((updatesC9.filter (fun u => decide (u.table_id = tableB.table_id))).map
        (fun u => u.ops)).flatten) :=
  (incremental_join_new_characterization exprAB updatesC9).2.2 tableA tableB rfl rfl
    (by decide)

theorem mem_hmInsert_elim (m : List (Nat × Op)) (op : Op) (q : Nat × Op)
    (h : q ∈ hmInsert m op) : q ∈ m ∨ q = (op.row_pk, op) := by
  unfold hmInsert at h
  by_cases hc : m.any (fun p => decide (p.1 = op.row_pk))
  · rw [if_pos hc] at h
    obtain ⟨p, hp, hpq⟩ := List.mem_map.mp h
    by_cases he : p.1 = op.row_pk
    · rw [if_pos he] at hpq
      exact .inr hpq.symm
    · rw [if_neg he] at hpq
      subst hpq
      exact .inl hp
  · rw [if_neg hc] at h
    rcases List.mem_append.mp h with h | h
    · exact .inl h
    · exact .inr (by simpa using h)

theorem hmInsert_snd (m : List (Nat × Op)) (op : Op)
    (hm : ∀ p ∈ m, p.1 = p.2.row_pk) :
    ∀ p ∈ hmInsert m op, p.1 = p.2.row_pk := by
  intro p hp
  rcases mem_hmInsert_elim m op p hp with h | h
  · exact hm p h
  · subst h
    rfl

theorem hmExtend_snd (ops : List Op) (m : List (Nat × Op))
    (hm : ∀ p ∈ m, p.1 = p.2.row_pk) :
    ∀ p ∈ hmExtend m ops, p.1 = p.2.row_pk := by
  induction ops generalizing m with
  | nil => exact hm
  | cons op rest ih => exact ih _ (hmInsert_snd m op hm)

theorem hmCollect_snd (ops : List Op) : ∀ p ∈ hmCollect ops, p.1 = p.2.row_pk :=
  hmExtend_snd ops [] (by simp)

theorem mem_hmValues_retain (m : List (Nat × Op)) (sym : List Nat) (op : Op)
    (hm : ∀ p ∈ m, p.1 = p.2.row_pk) :
    op ∈ hmValues (hmRetain m sym) ↔ (op.row_pk, op) ∈ m ∧ op.row_pk ∈ sym := by
  unfold hmValues hmRetain
  simp only [List.mem_map, List.mem_filter, decide_eq_true_eq]
  constructor
  · rintro ⟨p, ⟨hp, hsym⟩, rfl⟩
    have hk := hm p hp
    refine ⟨?_, by rw [← hk]; exact hsym⟩
    have hpe : p = (p.2.row_pk, p.2) := by
      cases p with
      | mk k v =>
        simp only at hk
        rw [hk]
    rw [← hpe]
    exact hp
  · rintro ⟨hp, hsym⟩
    exact ⟨(op.row_pk, op), ⟨hp, hsym⟩, rfl⟩

theorem hmContains_eq (m : List (Nat × Op)) (k : Nat) :
    hmContains m k = true ↔ k ∈ hmKeys m := by
  simp [hmContains, hmKeys, List.any_eq_true]

theorem mem_symDiff (ins del : List (Nat × Op)) (k : Nat) :
    k ∈ symDiff ins del ↔
      (k ∈ hmKeys ins ∧ k ∉ hmKeys del) ∨ (k ∈ hmKeys del ∧ k ∉ hmKeys ins) := by
  unfold symDiff
  rw [List.mem_append, List.mem_filter, List.mem_filter]
  simp only [Bool.not_eq_true', Bool.not_eq_true]
  rw [← Bool.not_eq_true (hmContains del k), ← Bool.not_eq_true (hmContains ins k)]
  rw [hmContains_eq, hmContains_eq]

theorem mem_hmKeys (m : List (Nat × Op)) (k : Nat) :
    k ∈ hmKeys m ↔ ∃ p ∈ m, p.1 = k := by
  simp [hmKeys]

/-- C1: given the five sub-join results, `IncrementalJoin::eval` returns
exactly the ops whose primary key lies in the symmetric difference of the key
sets of `inserts = {A+ join B} U {A join B+}` and
`deletes = {A- join B} U {A join B-} U {A- join B-}` (unions keyed by primary
key, later entries overriding), listing all retained deletes before all
retained inserts. -/
theorem incremental_join_eval_symmetric_difference (db : DBModel)
    (j : IncrementalJoin) (a b a2 b2 c res : List Op)
    (ha : eval_incremental db (to_mem_table j.expr j.lhs.inserts) = .ok a)
    (hb : rhsRunOps db (j.to_mem_table_rhs j.rhs.inserts) 1 = .ok b)
    (ha2 : eval_incremental db (to_mem_table j.expr j.lhs.deletes) = .ok a2)
    (hb2 : rhsRunOps db (j.to_mem_table_rhs j.rhs.deletes) 0 = .ok b2)
    (hc : eval_incremental db
      (to_mem_table (j.to_mem_table_rhs j.rhs.deletes) j.lhs.deletes) = .ok c)
    (hres : IncrementalJoin.eval db j = .ok res) :
    res = hmValues (hmRetain (hmExtend (hmExtend (hmCollect a2) b2) c)
            (symDiff (hmExtend (hmCollect a) b) (hmExtend (hmExtend (hmCollect a2) b2) c)))
          ++ hmValues (hmRetain (hmExtend (hmCollect a) b)
            (symDiff (hmExtend (hmCollect a) b) (hmExtend (hmExtend (hmCollect a2) b2) c))) ∧
    (∀ op, op ∈ res ↔
      op.row_pk ∈ symDiff (hmExtend (hmCollect a) b)
          (hmExtend (hmExtend (hmCollect a2) b2) c) ∧
      ((op.row_pk, op) ∈ hmExtend (hmExtend (hmCollect a2) b2) c ∨
        (op.row_pk, op) ∈ hmExtend (hmCollect a) b)) ∧
    (∀ k, k ∈ symDiff (hmExtend (hmCollect a) b)
        (hmExtend (hmExtend (hmCollect a2) b2) c) →
      ∃ op ∈ res, op.row_pk = k) := by
  unfold IncrementalJoin.eval at hres
  rw [ha, hb, ha2, hb2, hc] at hres
  simp only [Except.ok.injEq] at hres
  subst hres
  have hins : ∀ p ∈ hmExtend (hmCollect a) b, p.1 = p.2.row_pk :=
    hmExtend_snd b _ (hmCollect_snd a)
  have hdel : ∀ p ∈ hmExtend (hmExtend (hmCollect a2) b2) c, p.1 = p.2.row_pk :=
    hmExtend_snd c _ (hmExtend_snd b2 _ (hmCollect_snd a2))
  refine ⟨rfl, ?_, ?_⟩
  · intro op
    rw [List.mem_append, mem_hmValues_retain _ _ _ hdel, mem_hmValues_retain _ _ _ hins]
    constructor
    · rintro (⟨hm, hs⟩ | ⟨hm, hs⟩)
      · exact ⟨hs, .inl hm⟩
      · exact ⟨hs, .inr hm⟩
    · rintro ⟨hs, hm | hm⟩
      · exact .inl ⟨hm, hs⟩
      · exact .inr ⟨hm, hs⟩
  · intro k hk
    have hcases := (mem_symDiff _ _ k).mp hk
    rcases hcases with ⟨hkins, _⟩ | ⟨hkdel, _⟩
    · obtain ⟨p, hp, hpk⟩ := (mem_hmKeys _ k).mp hkins
      refine ⟨p.2, ?_, by rw [← hins p hp]; exact hpk⟩
      rw [List.mem_append, mem_hmValues_retain _ _ _ hins]
      refine .inr ⟨?_, ?_⟩
      · have hpe : p = (p.2.row_pk, p.2) := by
          cases p with
          | mk k1 v => exact congrArg (fun x => (x, v)) (hins ⟨k1, v⟩ hp)
        rw [← hpe]
        exact hp
      · rw [hins p hp] at hpk
        rw [hpk]
        exact hk
    · obtain ⟨p, hp, hpk⟩ := (mem_hmKeys _ k).mp hkdel
      refine ⟨p.2, ?_, by rw [← hdel p hp]; exact hpk⟩
      rw [List.mem_append, mem_hmValues_retain _ _ _ hdel]
      refine .inl ⟨?_, ?_⟩
      · have hpe : p = (p.2.row_pk, p.2) := by
          cases p with
          | mk k1 v => exact congrArg (fun x => (x, v)) (hdel ⟨k1, v⟩ hp)
        rw [← hpe]
        exact hp
      · rw [hdel p hp] at hpk
        rw [hpk]
        exact hk

/-- Witness for C1 at the concrete one-insert join instance: the key 5 of the
symmetric difference is realized by an emitted op. -/
theorem incremental_join_eval_symmetric_difference_witness :
    ∃ op ∈ [({ op_type := 1, row_pk := 5, row := [AlgebraicValue.u64 5] } : Op)],
      op.row_pk = 5 :=
  (incremental_join_eval_symmetric_difference dbMemId joinC1
    [⟨1, 5, [AlgebraicValue.u64 5]⟩] [] [] [] []
    [⟨1, 5, [AlgebraicValue.u64 5]⟩]
    rfl rfl rfl rfl rfl rfl).2.2 5 (by decide)

/-- C2 counterexample: for the concrete scan query `scanA` and the update
`updateInsDel` (whose ops list an insert before a delete), `eval_incr`
emits a bucket in which an `op_type = 1` op precedes an `op_type = 0` op, so
the deletes-before-inserts ordering fails on the Scan path. -/
theorem scan_path_op_order_violation : checkC2 = false := by decide

theorem rhsRunOps_type (db : DBModel) (expr : QueryExpr) (t : Nat) (b : List Op)
    (h : rhsRunOps db expr t = .ok b) : ∀ op ∈ b, op.op_type = t := by
  unfold rhsRunOps at h
  cases hrq : db.run_query expr with
  | error e => rw [hrq] at h; exact absurd h (by simp)
  | ok results =>
    rw [hrq] at h
    simp only [Except.ok.injEq] at h
    subst h
    intro op hop
    simp only [List.mem_flatten, List.mem_map] at hop
    obtain ⟨l, ⟨r, _, hl⟩, hop⟩ := hop
    subst hl
    obtain ⟨row, _, hrow⟩ := List.mem_map.mp hop
    rw [← hrow]

theorem mem_hmExtend_elim (ops : List Op) (m : List (Nat × Op)) (q : Nat × Op)
    (h : q ∈ hmExtend m ops) : q ∈ m ∨ ∃ op ∈ ops, q = (op.row_pk, op) := by
  induction ops generalizing m with
  | nil => exact .inl h
  | cons op rest ih =>
    rcases ih _ h with h2 | ⟨op', hop', he⟩
    · rcases mem_hmInsert_elim m op q h2 with h3 | h3
      · exact .inl h3
      · exact .inr ⟨op, by simp, h3⟩
    · exact .inr ⟨op', by simp [hop'], he⟩

theorem deletesBeforeInsertsOps_append (d i : List Op)
    (hd : ∀ op ∈ d, op.op_type = 0) (hi : ∀ op ∈ i, op.op_type = 1) :
    deletesBeforeInsertsOps (d ++ i) = true := by
  induction d with
  | nil =>
    simp only [List.nil_append]
    induction i with
    | nil => rfl
    | cons op rest ih =>
      simp only [deletesBeforeInsertsOps, Bool.and_eq_true]
      refine ⟨?_, ih (fun o ho => hi o (by simp [ho]))⟩
      have h1 := hi op (by simp)
      rw [if_pos h1]
      rw [List.all_eq_true]
      intro o ho
      have := hi o (by simp [ho])
      simp [this]
  | cons op rest ih =>
    simp only [List.cons_append, deletesBeforeInsertsOps, Bool.and_eq_true]
    have h0 := hd op (by simp)
    refine ⟨?_, ih (fun o ho => hd o (by simp [ho]))⟩
    rw [if_neg (by rw [h0]; simp)]

/-- C2 amended: within the contribution of a single Semijoin query, all
retained deletes precede all retained inserts: whenever the LHS-varying
sub-joins over delete (resp. insert) virtual tables yield only `op_type = 0`
(resp. `op_type = 1`) ops — which holds when `run_query` preserves the
injected markers — `IncrementalJoin::eval` emits all `op_type = 0` ops before
all `op_type = 1` ops.  (The Scan path and the concatenation across queries
of `eval_incr` give no such guarantee, see the counterexample.) -/
theorem semijoin_deletes_before_inserts (db : DBModel) (j : IncrementalJoin)
    (a b a2 b2 c res : List Op)
    (ha : eval_incremental db (to_mem_table j.expr j.lhs.inserts) = .ok a)
    (hb : rhsRunOps db (j.to_mem_table_rhs j.rhs.inserts) 1 = .ok b)
    (ha2 : eval_incremental db (to_mem_table j.expr j.lhs.deletes) = .ok a2)
    (hb2 : rhsRunOps db (j.to_mem_table_rhs j.rhs.deletes) 0 = .ok b2)
    (hc : eval_incremental db
      (to_mem_table (j.to_mem_table_rhs j.rhs.deletes) j.lhs.deletes) = .ok c)
    (hat : ∀ op ∈ a, op.op_type = 1)
    (ha2t : ∀ op ∈ a2, op.op_type = 0)
    (hct : ∀ op ∈ c, op.op_type = 0)
    (hres : IncrementalJoin.eval db j = .ok res) :
    deletesBeforeInsertsOps res = true := by
  have hbt := rhsRunOps_type db (j.to_mem_table_rhs j.rhs.inserts) 1 b hb
  have hb2t := rhsRunOps_type db (j.to_mem_table_rhs j.rhs.deletes) 0 b2 hb2
  unfold IncrementalJoin.eval at hres
  rw [ha, hb, ha2, hb2, hc] at hres
  simp only [Except.ok.injEq] at hres
  subst hres
  have hdelv : ∀ p ∈ hmExtend (hmExtend (hmCollect a2) b2) c, p.2.op_type = 0 := by
    intro p hp
    rcases mem_hmExtend_elim c _ p hp with hp2 | ⟨op, hop, he⟩
    · rcases mem_hmExtend_elim b2 _ p hp2 with hp3 | ⟨op, hop, he⟩
      · rcases mem_hmExtend_elim a2 [] p hp3 with h | ⟨op, hop, he⟩
        · exact absurd h (by simp)
        · rw [he]; exact ha2t op hop
      · rw [he]; exact hb2t op hop
    · rw [he]; exact hct op hop
  have hinsv : ∀ p ∈ hmExtend (hmCollect a) b, p.2.op_type = 1 := by
    intro p hp
    rcases mem_hmExtend_elim b _ p hp with hp2 | ⟨op, hop, he⟩
    · rcases mem_hmExtend_elim a [] p hp2 with h | ⟨op, hop, he⟩
      · exact absurd h (by simp)
      · rw [he]; exact hat op hop
    · rw [he]; exact hbt op hop
  apply deletesBeforeInsertsOps_append
  · intro op hop
    obtain ⟨p, hp, hpe⟩ := List.mem_map.mp hop
    rw [← hpe]
    exact hdelv p (List.mem_filter.mp hp).1
  · intro op hop
    obtain ⟨p, hp, hpe⟩ := List.mem_map.mp hop
    rw [← hpe]
    exact hinsv p (List.mem_filter.mp hp).1

/-- Witness for the amended C2 at the concrete one-insert join instance. -/
theorem semijoin_deletes_before_inserts_witness :
    deletesBeforeInsertsOps [({ op_type := 1, row_pk := 5, row := [AlgebraicValue.u64 5] } : Op)]
      = true :=
  semijoin_deletes_before_inserts dbMemId joinC1
    [⟨1, 5, [AlgebraicValue.u64 5]⟩] [] [] [] []
    [⟨1, 5, [AlgebraicValue.u64 5]⟩]
    rfl rfl rfl rfl rfl (by decide) (by decide) (by decide) rfl

theorem to_bytes_inj (pk1 pk2 : Nat) (h : PrimaryKey.to_bytes pk1 = PrimaryKey.to_bytes pk2) :
    pk1 = pk2 := by
  simpa [PrimaryKey.to_bytes] using h

theorem filter_count_le_one {α β : Type} [DecidableEq β] (l : List α) (f : α → β) (v : β)
    (h : (l.map f).Nodup) : (l.filter (fun x => decide (f x = v))).length ≤ 1 := by
  induction l with
  | nil => simp
  | cons x rest ih =>
    simp only [List.map_cons, List.nodup_cons] at h
    by_cases hx : f x = v
    · rw [List.filter_cons_of_pos (by simpa using hx)]
      have hrest : (rest.filter (fun y => decide (f y = v))).length = 0 := by
        rw [List.length_eq_zero]
        by_contra hne
        obtain ⟨y, hy⟩ := List.exists_mem_of_ne_nil _ hne
        have hy2 := List.mem_filter.mp hy
        have : f y = v := by simpa using hy2.2
        exact h.1 (by
          rw [← hx] at this
          exact List.mem_map.mpr ⟨y, hy2.1, this.symm ▸ rfl⟩)
      simp [hrest]
    · rw [List.filter_cons_of_neg (by simpa using hx)]
      exact ih h.2

theorem dedupOps_seen_mono (tid : Nat) (ops : List Op) (seen : Seen) :
    ∀ x ∈ seen, x ∈ (dedupOps tid ops seen).2 := by
  induction ops generalizing seen with
  | nil => intro x hx; exact hx
  | cons op rest ih =>
    intro x hx
    simp only [dedupOps]
    by_cases hs : (tid, op.row_pk) ∈ seen
    · rw [if_pos hs]
      exact ih seen x hx
    · rw [if_neg hs]
      exact ih _ x (by simp [hx])

theorem dedupOps_emitted (tid : Nat) (ops : List Op) (seen : Seen) :
    ∀ top ∈ (dedupOps tid ops seen).1, ∃ pk, top.row_pk = PrimaryKey.to_bytes pk ∧
      (tid, pk) ∉ seen ∧ (tid, pk) ∈ (dedupOps tid ops seen).2 := by
  induction ops generalizing seen with
  | nil => intro top htop; exact absurd htop (by simp [dedupOps])
  | cons op rest ih =>
    intro top htop
    simp only [dedupOps] at htop ⊢
    by_cases hs : (tid, op.row_pk) ∈ seen
    · rw [if_pos hs] at htop ⊢
      exact ih seen top htop
    · rw [if_neg hs] at htop ⊢
      rcases List.mem_cons.mp htop with he | he
      · refine ⟨op.row_pk, by rw [he]; rfl, hs, ?_⟩
        exact dedupOps_seen_mono tid rest _ _ (by simp)
      · obtain ⟨pk, h1, h2, h3⟩ := ih _ top he
        refine ⟨pk, h1, fun hc => h2 (by simp [hc]), h3⟩

theorem dedupOps_pks_nodup (tid : Nat) (ops : List Op) (seen : Seen) :
    ((dedupOps tid ops seen).1.map (fun top => top.row_pk)).Nodup := by
  induction ops generalizing seen with
  | nil => simp [dedupOps]
  | cons op rest ih =>
    simp only [dedupOps]
    by_cases hs : (tid, op.row_pk) ∈ seen
    · rw [if_pos hs]
      exact ih seen
    · rw [if_neg hs]
      simp only [List.map_cons, List.nodup_cons]
      refine ⟨?_, ih _⟩
      intro hmem
      obtain ⟨top, htop, hpk⟩ := List.mem_map.mp hmem
      obtain ⟨pk, h1, h2, _⟩ := dedupOps_emitted tid rest _ top htop
      rw [h1] at hpk
      have : pk = op.row_pk := to_bytes_inj pk op.row_pk (by
        rw [hpk]
        rfl)
      exact h2 (by simp [this])

theorem opsForM_nil (tid : Nat) (pkb : List Nat) : opsForM [] tid pkb = [] := rfl

theorem opsForM_cons (e : Nat × String × List TableOp) (m : TableOpsMap)
    (tid : Nat) (pkb : List Nat) :
    opsForM (e :: m) tid pkb
      = (if e.1 = tid then e.2.2.filter (fun top => decide (top.row_pk = pkb)) else [])
        ++ opsForM m tid pkb := rfl

theorem opsForM_nil_of_no_key (m : TableOpsMap) (tid : Nat) (pkb : List Nat)
    (h : ∀ e ∈ m, e.1 ≠ tid) : opsForM m tid pkb = [] := by
  induction m with
  | nil => rfl
  | cons e rest ih =>
    rw [opsForM_cons, if_neg (h e (by simp)), List.nil_append]
    exact ih (fun e' he' => h e' (by simp [he']))

theorem tableOpsAdd_cons_ne (e : Nat × String × List TableOp) (rest : TableOpsMap)
    (tid : Nat) (name : String) (tops : List TableOp) (he : e.1 ≠ tid) :
    tableOpsAdd (e :: rest) tid name tops = e :: tableOpsAdd rest tid name tops := by
  unfold tableOpsAdd
  have hea : (e :: rest).any (fun x => decide (x.1 = tid))
      = rest.any (fun x => decide (x.1 = tid)) := by
    simp [List.any_cons, he]
  rw [hea]
  by_cases hr : rest.any (fun x => decide (x.1 = tid))
  · rw [if_pos hr, if_pos hr, List.map_cons, if_neg he]
  · rw [if_neg hr, if_neg hr, List.cons_append]

theorem map_id_of_no_key (m : TableOpsMap) (tid : Nat) (tops : List TableOp)
    (h : ∀ e ∈ m, e.1 ≠ tid) :
    m.map (fun e => if e.1 = tid then (e.1, e.2.1, e.2.2 ++ tops) else e) = m := by
  rw [List.map_congr_left (fun e he => if_neg (h e he))]
  simp

theorem tableOpsAdd_keys_nodup (m : TableOpsMap) (tid : Nat) (name : String)
    (tops : List TableOp) (h : (m.map (fun e => e.1)).Nodup) :
    ((tableOpsAdd m tid name tops).map (fun e => e.1)).Nodup := by
  unfold tableOpsAdd
  by_cases hc : m.any (fun e => decide (e.1 = tid))
  · rw [if_pos hc, List.map_map]
    have : ((fun e => e.1) ∘ fun e : Nat × String × List TableOp =>
        if e.1 = tid then (e.1, e.2.1, e.2.2 ++ tops) else e) = fun e => e.1 := by
      funext e
      by_cases he : e.1 = tid
      · simp [he]
      · simp [he]
    rw [this]
    exact h
  · rw [if_neg hc, List.map_append]
    simp only [List.map_cons, List.map_nil]
    rw [List.nodup_append]
    refine ⟨h, by simp, ?_⟩
    intro k hk
    simp only [List.mem_singleton]
    intro hkt
    subst hkt
    obtain ⟨e, he, hek⟩ := List.mem_map.mp hk
    rw [List.any_eq_true] at hc
    exact hc ⟨e, he, by simp [hek]⟩

theorem opsForM_tableOpsAdd (m : TableOpsMap) (tid : Nat) (name : String)
    (tops : List TableOp) (tid' : Nat) (pkb : List Nat)
    (hnd : (m.map (fun e => e.1)).Nodup) :
    opsForM (tableOpsAdd m tid name tops) tid' pkb
      = opsForM m tid' pkb
        ++ (if tid' = tid then tops.filter (fun top => decide (top.row_pk = pkb)) else []) := by
  induction m with
  | nil =>
    rw [show tableOpsAdd [] tid name tops = [(tid, name, tops)] from rfl]
    by_cases ht : tid' = tid
    · subst ht
      simp [opsForM]
    · simp [opsForM, ht, Ne.symm ht]
  | cons e rest ih =>
    simp only [List.map_cons, List.nodup_cons] at hnd
    by_cases he : e.1 = tid
    · have hrest : ∀ e' ∈ rest, e'.1 ≠ tid := by
        intro e' he' hc
        exact hnd.1 (List.mem_map.mpr ⟨e', he', by rw [hc, he]⟩)
      unfold tableOpsAdd
      rw [if_pos (by simp [he])]
      rw [List.map_cons, if_pos he, map_id_of_no_key rest tid tops hrest]
      rw [opsForM_cons, opsForM_cons]
      by_cases ht : tid' = tid
      · have he' : e.1 = tid' := by rw [he, ht]
        rw [if_pos he', if_pos he',
          opsForM_nil_of_no_key rest tid' pkb (by rw [ht]; exact hrest),
          if_pos ht, List.filter_append]
        simp
      · have he'' : ¬ e.1 = tid' := by rw [he]; exact fun hc => ht hc.symm
        rw [if_neg he'', if_neg he'', if_neg ht, List.append_nil]
    · rw [tableOpsAdd_cons_ne e rest tid name tops he]
      rw [opsForM_cons, opsForM_cons, ih hnd.2, List.append_assoc]

theorem stInv_add (st : TableOpsMap × Seen) (tid : Nat) (name : String) (ops : List Op)
    (hinv : StInv st) :
    StInv (tableOpsAdd st.1 tid name (dedupOps tid ops st.2).1, (dedupOps tid ops st.2).2) := by
  obtain ⟨h1, h2, h3⟩ := hinv
  refine ⟨?_, ?_, tableOpsAdd_keys_nodup _ _ _ _ h3⟩
  · intro tid' pkb
    rw [opsForM_tableOpsAdd _ _ _ _ _ _ h3]
    by_cases ht : tid' = tid
    · rw [if_pos ht, List.length_append]
      by_cases hdf : (((dedupOps tid ops st.2).1).filter
          (fun top => decide (top.row_pk = pkb))).length = 0
      · rw [hdf]
        simpa using h1 tid' pkb
      · have hne : ∃ top ∈ (dedupOps tid ops st.2).1, top.row_pk = pkb := by
          have hfne : ((dedupOps tid ops st.2).1).filter
              (fun top => decide (top.row_pk = pkb)) ≠ [] := by
            intro hnil
            rw [hnil] at hdf
            exact hdf rfl
          rcases List.exists_mem_of_ne_nil _ hfne with ⟨top, htop⟩
          have hm := List.mem_filter.mp htop
          exact ⟨top, hm.1, by simpa using hm.2⟩
        obtain ⟨top, htop, hpkb⟩ := hne
        obtain ⟨pk, hto, hfresh, _⟩ := dedupOps_emitted tid ops st.2 top htop
        have hpkb2 : pkb = PrimaryKey.to_bytes pk := by rw [← hpkb, hto]
        have hold : opsForM st.1 tid' pkb = [] := by
          by_contra hc
          rw [hpkb2] at hc
          have := h2 tid' pk hc
          rw [ht] at this
          exact hfresh this
        rw [hold]
        have hcnt := filter_count_le_one (dedupOps tid ops st.2).1
          (fun top => top.row_pk) pkb (dedupOps_pks_nodup tid ops st.2)
        simpa using hcnt
    · rw [if_neg ht, List.append_nil]
      exact h1 tid' pkb
  · intro tid' pk hne
    rw [opsForM_tableOpsAdd _ _ _ _ _ _ h3] at hne
    by_cases hold : opsForM st.1 tid' (PrimaryKey.to_bytes pk) = []
    · rw [hold, List.nil_append] at hne
      by_cases ht : tid' = tid
      · rw [if_pos ht] at hne
        rcases List.exists_mem_of_ne_nil _ hne with ⟨top, htop⟩
        have hf := List.mem_filter.mp htop
        obtain ⟨pk', hto, _, hseen⟩ := dedupOps_emitted tid ops st.2 top hf.1
        have hpk : pk' = pk := to_bytes_inj pk' pk (by
          rw [← hto]
          simpa using hf.2)
        rw [ht]
        rw [← hpk]
        exact hseen
      · rw [if_neg ht] at hne
        exact absurd rfl hne
    · exact dedupOps_seen_mono tid ops st.2 _ (h2 tid' pk hold)

theorem opsForM_mono_add (st : TableOpsMap × Seen) (tid : Nat) (name : String)
    (tops : List TableOp) (tid' : Nat) (pkb : List Nat) (top : TableOp)
    (hnd : (st.1.map (fun e => e.1)).Nodup)
    (h : top ∈ opsForM st.1 tid' pkb) :
    top ∈ opsForM (tableOpsAdd st.1 tid name tops) tid' pkb := by
  rw [opsForM_tableOpsAdd _ _ _ _ _ _ hnd]
  exact List.mem_append.mpr (.inl h)

theorem scanTables_inv (db : DBModel) (expr : QueryExpr)
    (tables : List DatabaseTableUpdate) (st st2 : TableOpsMap × Seen)
    (h : scanTables db expr tables st = .ok st2) (hinv : StInv st) :
    StInv st2 ∧ ∀ tid' pkb top, top ∈ opsForM st.1 tid' pkb → top ∈ opsForM st2.1 tid' pkb := by
  induction tables generalizing st with
  | nil =>
    simp only [scanTables, Except.ok.injEq] at h
    subst h
    exact ⟨hinv, fun _ _ _ ht => ht⟩
  | cons table rest ih =>
    simp only [scanTables] at h
    cases he : eval_incremental db (to_mem_table expr table) with
    | error e => rw [he] at h; exact absurd h (by simp)
    | ok ops =>
      rw [he] at h
      have hstep := stInv_add st table.table_id table.table_name ops hinv
      obtain ⟨hinv2, hmono⟩ := ih _ h hstep
      refine ⟨hinv2, fun tid' pkb top ht => hmono tid' pkb top ?_⟩
      exact opsForM_mono_add st table.table_id table.table_name _ tid' pkb top hinv.2.2 ht

theorem evalIncrQuery_inv (db : DBModel) (u : DatabaseUpdate)
    (st st2 : TableOpsMap × Seen) (q : SupportedQuery)
    (h : evalIncrQuery db u st q = .ok st2) (hinv : StInv st) :
    StInv st2 ∧ ∀ tid' pkb top, top ∈ opsForM st.1 tid' pkb → top ∈ opsForM st2.1 tid' pkb := by
  unfold evalIncrQuery at h
  cases hk : q.kind with
  | scan =>
    rw [hk] at h
    cases hs : q.expr.source with
    | memTable mt => rw [hs] at h; exact absurd h (by simp)
    | dbTable t =>
      rw [hs] at h
      exact scanTables_inv db q.expr _ st st2 h hinv
  | semijoin =>
    rw [hk] at h
    simp only at h
    split at h
    · exact absurd h (by simp)
    · simp only [Except.ok.injEq] at h
      subst h
      exact ⟨hinv, fun _ _ _ ht => ht⟩
    · rename_i plan _
      split at h
      · exact absurd h (by simp)
      · rename_i ops _
        simp only [Except.ok.injEq] at h
        subst h
        refine ⟨stInv_add st plan.lhs.table.table_id plan.lhs.table.head.table_name ops hinv,
          fun tid' pkb top ht => ?_⟩
        exact opsForM_mono_add st plan.lhs.table.table_id _ _ tid' pkb top hinv.2.2 ht

theorem evalIncrQueries_inv (db : DBModel) (u : DatabaseUpdate)
    (qs : List SupportedQuery) (st st2 : TableOpsMap × Seen)
    (h : evalIncrQueries db u qs st = .ok st2) (hinv : StInv st) :
    StInv st2 ∧ ∀ tid' pkb top, top ∈ opsForM st.1 tid' pkb → top ∈ opsForM st2.1 tid' pkb := by
  induction qs generalizing st with
  | nil =>
    simp only [evalIncrQueries, Except.ok.injEq] at h
    subst h
    exact ⟨hinv, fun _ _ _ ht => ht⟩
  | cons q qs ih =>
    simp only [evalIncrQueries] at h
    cases hq : evalIncrQuery db u st q with
    | error e => rw [hq] at h; exact absurd h (by simp)
    | ok stm =>
      rw [hq] at h
      obtain ⟨hinv1, hmono1⟩ := evalIncrQuery_inv db u st stm q hq hinv
      obtain ⟨hinv2, hmono2⟩ := ih _ h hinv1
      exact ⟨hinv2, fun tid' pkb top ht => hmono2 tid' pkb top (hmono1 tid' pkb top ht)⟩

theorem evalQuery_inv (db : DBModel) (st st2 : TableOpsMap × Seen) (q : SupportedQuery)
    (h : evalQuery db st q = .ok st2) (hinv : StInv st) :
    StInv st2 ∧ ∀ tid' pkb top, top ∈ opsForM st.1 tid' pkb → top ∈ opsForM st2.1 tid' pkb := by
  unfold evalQuery at h
  cases hs : q.expr.source with
  | memTable mt =>
    rw [hs] at h
    simp only [Except.ok.injEq] at h
    subst h
    exact ⟨hinv, fun _ _ _ ht => ht⟩
  | dbTable t =>
    rw [hs] at h
    cases hrq : db.run_query q.expr with
    | error e => rw [hrq] at h; exact absurd h (by simp)
    | ok results =>
      rw [hrq] at h
      simp only [Except.ok.injEq] at h
      subst h
      refine ⟨stInv_add st t.table_id t.head.table_name _ hinv, fun tid' pkb top ht => ?_⟩
      exact opsForM_mono_add st t.table_id _ _ tid' pkb top hinv.2.2 ht

theorem evalQueries_inv (db : DBModel) (qs : List SupportedQuery)
    (st st2 : TableOpsMap × Seen)
    (h : evalQueries db qs st = .ok st2) (hinv : StInv st) :
    StInv st2 ∧ ∀ tid' pkb top, top ∈ opsForM st.1 tid' pkb → top ∈ opsForM st2.1 tid' pkb := by
  induction qs generalizing st with
  | nil =>
    simp only [evalQueries, Except.ok.injEq] at h
    subst h
    exact ⟨hinv, fun _ _ _ ht => ht⟩
  | cons q qs ih =>
    simp only [evalQueries] at h
    cases hq : evalQuery db st q with
    | error e => rw [hq] at h; exact absurd h (by simp)
    | ok stm =>
      rw [hq] at h
      obtain ⟨hinv1, hmono1⟩ := evalQuery_inv db st stm q hq hinv
      obtain ⟨hinv2, hmono2⟩ := ih _ h hinv1
      exact ⟨hinv2, fun tid' pkb top ht => hmono2 tid' pkb top (hmono1 tid' pkb top ht)⟩

theorem finalize_opsFor (m : TableOpsMap) (tid : Nat) (pkb : List Nat) :
    opsFor (finalize m) tid pkb = opsForM m tid pkb := by
  induction m with
  | nil => rfl
  | cons e rest ih =>
    by_cases hemp : e.2.2.isEmpty
    · have hfe : finalize (e :: rest) = finalize rest := by
        simp [finalize, hemp]
      rw [hfe, ih, opsForM_cons]
      have he : e.2.2 = [] := by simpa [List.isEmpty_iff] using hemp
      rw [he]
      by_cases hk : e.1 = tid
      · simp [hk]
      · simp [hk]
    · have hfe : finalize (e :: rest)
          = ⟨{ table_id := e.1, table_name := e.2.1, ops := e.2.2 }
              :: (finalize rest).tables⟩ := by
        simp [finalize, hemp]
      rw [hfe, opsForM_cons]
      have ih' : opsFor ⟨(finalize rest).tables⟩ tid pkb = opsForM rest tid pkb := ih
      show (if e.1 = tid then e.2.2.filter (fun top => decide (top.row_pk = pkb)) else [])
          ++ opsFor ⟨(finalize rest).tables⟩ tid pkb = _
      rw [ih']

theorem stInv_init : StInv ([], []) := by
  refine ⟨fun tid pkb => by simp [opsForM], fun tid pk h => absurd rfl h, by simp⟩

theorem eval_incr_split (db : DBModel) (u : DatabaseUpdate)
    (qs1 qs2 : List SupportedQuery) (st1 : TableOpsMap × Seen)
    (heq1 : evalIncrQueries db u qs1 ([], []) = .ok st1) :
    QuerySet.eval_incr db (qs1 ++ qs2) u =
      match evalIncrQueries db u qs2 st1 with
      | .error e => .error e
      | .ok st2 => .ok (finalize st2.1) := by
  unfold QuerySet.eval_incr
  rw [evalIncrQueries_append db u qs1 qs2 ([], []), heq1]

theorem eval_split (db : DBModel) (qs1 qs2 : List SupportedQuery)
    (st1 : TableOpsMap × Seen)
    (heq1 : evalQueries db qs1 ([], []) = .ok st1) :
    QuerySet.eval db (qs1 ++ qs2) =
      match evalQueries db qs2 st1 with
      | .error e => .error e
      | .ok st2 => .ok (finalize st2.1) := by
  unfold QuerySet.eval
  rw [evalQueries_append db qs1 qs2 ([], []), heq1]

/-- C3: within one `eval` or `eval_incr` call, at most one op is emitted for
any `(table_id, row_pk)` pair across all queries, and the op kept for a pair
is the one produced by the earlier queries in iteration order: extending the
query list never changes an op already emitted for a pair by a prefix of the
list. -/
theorem eval_dedup_per_pk :
    (∀ (db : DBModel) (qs : List SupportedQuery) (u out : DatabaseUpdate)
      (tid : Nat) (pkb : List Nat),
      QuerySet.eval_incr db qs u = .ok out → (opsFor out tid pkb).length ≤ 1) ∧
    (∀ (db : DBModel) (qs : List SupportedQuery) (out : DatabaseUpdate)
      (tid : Nat) (pkb : List Nat),
      QuerySet.eval db qs = .ok out → (opsFor out tid pkb).length ≤ 1) ∧
    (∀ (db : DBModel) (u : DatabaseUpdate) (qs1 qs2 : List SupportedQuery)
      (out1 out2 : DatabaseUpdate) (tid : Nat) (pkb : List Nat) (top : TableOp),
      QuerySet.eval_incr db qs1 u = .ok out1 →
      QuerySet.eval_incr db (qs1 ++ qs2) u = .ok out2 →
      top ∈ opsFor out1 tid pkb → top ∈ opsFor out2 tid pkb) ∧
    (∀ (db : DBModel) (qs1 qs2 : List SupportedQuery)
      (out1 out2 : DatabaseUpdate) (tid : Nat) (pkb : List Nat) (top : TableOp),
      QuerySet.eval db qs1 = .ok out1 →
      QuerySet.eval db (qs1 ++ qs2) = .ok out2 →
      top ∈ opsFor out1 tid pkb → top ∈ opsFor out2 tid pkb) := by
  refine ⟨?_, ?_, ?_, ?_⟩
  · intro db qs u out tid pkb h
    unfold QuerySet.eval_incr at h
    cases heq : evalIncrQueries db u qs ([], []) with
    | error e => rw [heq] at h; exact absurd h (by simp)
    | ok st =>
      rw [heq] at h
      simp only [Except.ok.injEq] at h
      subst h
      rw [finalize_opsFor]
      exact (evalIncrQueries_inv db u qs ([], []) st heq stInv_init).1.1 tid pkb
  · intro db qs out tid pkb h
    unfold QuerySet.eval at h
    cases heq : evalQueries db qs ([], []) with
    | error e => rw [heq] at h; exact absurd h (by simp)
    | ok st =>
      rw [heq] at h
      simp only [Except.ok.injEq] at h
      subst h
      rw [finalize_opsFor]
      exact (evalQueries_inv db qs ([], []) st heq stInv_init).1.1 tid pkb
  · intro db u qs1 qs2 out1 out2 tid pkb top h1 h2 htop
    unfold QuerySet.eval_incr at h1
    cases heq1 : evalIncrQueries db u qs1 ([], []) with
    | error e => rw [heq1] at h1; exact absurd h1 (by simp)
    | ok st1 =>
      rw [heq1] at h1
      simp only [Except.ok.injEq] at h1
      rw [eval_incr_split db u qs1 qs2 st1 heq1] at h2
      cases heq2 : evalIncrQueries db u qs2 st1 with
      | error e => rw [heq2] at h2; exact absurd h2 (by simp)
      | ok st2 =>
        rw [heq2] at h2
        simp only [Except.ok.injEq] at h2
        subst h1
        subst h2
        have hinv1 := evalIncrQueries_inv db u qs1 ([], []) st1 heq1 stInv_init
        have hmono := (evalIncrQueries_inv db u qs2 st1 st2 heq2 hinv1.1).2
        rw [finalize_opsFor] at htop ⊢
        exact hmono tid pkb top htop
  · intro db qs1 qs2 out1 out2 tid pkb top h1 h2 htop
    unfold QuerySet.eval at h1
    cases heq1 : evalQueries db qs1 ([], []) with
    | error e => rw [heq1] at h1; exact absurd h1 (by simp)
    | ok st1 =>
      rw [heq1] at h1
      simp only [Except.ok.injEq] at h1
      rw [eval_split db qs1 qs2 st1 heq1] at h2
      cases heq2 : evalQueries db qs2 st1 with
      | error e => rw [heq2] at h2; exact absurd h2 (by simp)
      | ok st2 =>
        rw [heq2] at h2
        simp only [Except.ok.injEq] at h2
        subst h1
        subst h2
        have hinv1 := evalQueries_inv db qs1 ([], []) st1 heq1 stInv_init
        have hmono := (evalQueries_inv db qs2 st1 st2 heq2 hinv1.1).2
        rw [finalize_opsFor] at htop ⊢
        exact hmono tid pkb top htop

/-- Witness for C3: the op emitted by the first scan query survives a second
identical query unchanged. -/
theorem eval_dedup_per_pk_witness :
    ({ op_type := 1, row_pk := [10], row := [AlgebraicValue.u64 10] } : TableOp)
      ∈ opsFor outC3b 1 [10] :=
  eval_dedup_per_pk.2.2.1 dbMemId updateIns [scanA] [scanA] outC3a outC3b 1 [10]
    ⟨1, [10], [AlgebraicValue.u64 10]⟩ rfl rfl (by decide)
